import Mathlib

/-!
# Verification of the sequence-packing engine of
# `big_vision/datasets/sequence_packing.py`

The repository file `sequence_packing.py` wraps an external packing
operator (`grain.tensorflow.TfBatchAndPack`) in thin dataset plumbing.
The packing algorithm itself is therefore modelled here from the
specification (spec.md sections 3-4) together with the behaviour that the
source file's own docstring documents (its worked example, including the
stripping of trailing zero padding from incoming examples).

Tokens are integers; an example is an association list from field names
to token sequences; a `FieldSpec` maps each field name to its packed
capacity.
-/

namespace SeqPack

abbrev Token := Int

abbrev FieldSpec := List (String × Nat)

abbrev Example := List (String × List Token)

/-- A processed example: trailing-zero stripped and truncated fields. -/
abbrev PEx := List (String × List Token)

/-- Modelled from the spec: trailing zero tokens of an incoming field are
input padding, not tokens of the example (documented example of
`pack_dataset`, source lines 53-65: `[8, 7, 1, 0]` contributes three
tokens). -/
def stripTrailingZeros (xs : List Token) : List Token :=
  (xs.reverse.dropWhile (fun t => t == 0)).reverse

/-- Modelled from the spec: an incoming field is truncated to its first
`FieldSpec[f]` tokens (spec section 3; docstring of `pack_dataset`:
"Sequences in the incoming examples are truncated to length length"),
after its trailing zero padding is stripped. -/
def preprocessField (cap : Nat) (xs : List Token) : List Token :=
  (stripTrailingZeros xs).take cap

/-- Preprocess every declared field of an example. -/
def preprocess (spec : FieldSpec) (ex : Example) : PEx :=
  ex.filterMap (fun q => (spec.lookup q.1).map (fun cap => (q.1, preprocessField cap q.2)))

/-- One field of a bin under construction: parallel value / segment-id /
position sequences (spec section 3). -/
structure BinField where
  values : List Token
  segs : List Nat
  poss : List Nat
deriving Repr, DecidableEq

/-- A bin: one `BinField` per declared field, plus the next segment id to
assign and the number of examples already added (spec section 3). -/
structure Bin where
  fields : List (String × BinField)
  next_segment_id : Nat
  example_count : Nat
deriving Repr, DecidableEq

def emptyBin (spec : FieldSpec) : Bin :=
  ⟨spec.map (fun q => (q.1, ⟨[], [], []⟩)), 1, 0⟩

def binGet (b : Bin) (f : String) : BinField :=
  (b.fields.lookup f).getD ⟨[], [], []⟩

/-- Does a processed example fit in every one of its fields
(`len(example[f]) <= remaining_capacity[f]` for all `f` present)? -/
def fitsB (spec : FieldSpec) (b : Bin) (ex : PEx) : Bool :=
  ex.all (fun q => q.2.length + (binGet b q.1).values.length ≤ (spec.lookup q.1).getD 0)

/-- Append one example's tokens to one bin field: tokens, the segment id
repeated, and positions `0..len-1` (spec section 4). -/
def addToField (bf : BinField) (sid : Nat) (xs : List Token) : BinField :=
  ⟨bf.values ++ xs, bf.segs ++ List.replicate xs.length sid, bf.poss ++ List.range xs.length⟩

/-- Add a processed example to a bin: every field present in the example
is appended to; `next_segment_id` and `example_count` increment. -/
def addExample (b : Bin) (ex : PEx) : Bin :=
  ⟨b.fields.map (fun q =>
      match ex.lookup q.1 with
      | some xs => (q.1, addToField q.2 b.next_segment_id xs)
      | none => q),
   b.next_segment_id + 1, b.example_count + 1⟩

/-- One field of an emitted packed row. -/
structure PackedField where
  values : List Token
  segs : List Nat
  poss : List Nat
deriving Repr, DecidableEq

abbrev PackedRow := List (String × PackedField)

def padTo (cap : Nat) (z : α) (xs : List α) : List α :=
  xs ++ List.replicate (cap - xs.length) z

/-- Emit a bin as a completed packed row, zero-padding every field to its
capacity (segment id 0 and position 0 mark padding). -/
def emitBin (spec : FieldSpec) (b : Bin) : PackedRow :=
  spec.map (fun q =>
    (q.1, ⟨padTo q.2 0 (binGet b q.1).values,
           padTo q.2 0 (binGet b q.1).segs,
           padTo q.2 0 (binGet b q.1).poss⟩))

inductive PackError where
  | FieldNotDeclared (f : String)
deriving Repr, DecidableEq

/-- The packer state: the immutable field spec, the pool bound, and the
open bins in order of creation (oldest first). -/
structure Packer where
  spec : FieldSpec
  pool_size : Nat
  bins : List Bin
deriving Repr, DecidableEq

/-- Index of the first (oldest) bin the example fits in. -/
def firstFit (spec : FieldSpec) (bins : List Bin) (ex : PEx) : Option Nat :=
  match bins with
  | [] => none
  | b :: rest =>
    if fitsB spec b ex then some 0 else (firstFit spec rest ex).map (· + 1)

def updateAt (l : List α) (i : Nat) (g : α → α) : List α :=
  match l, i with
  | [], _ => []
  | a :: rest, 0 => g a :: rest
  | a :: rest, Nat.succ n => a :: updateAt rest n g

/-- Is the processed example empty (no field with any token left)?  Such
an example is absorbed as a no-op (spec section 4, recommended policy). -/
def allEmpty (ex : PEx) : Bool :=
  ex.all (fun q => q.2.isEmpty)

/-- Modelled from the spec: `submit(example)` (spec section 4.1).
Fails with `FieldNotDeclared` on an undeclared field; otherwise places the
(preprocessed) example first-fit into the oldest fitting open bin, or a
fresh bin if none fits, evicting (emitting) the oldest bin when the pool
is full. -/
def submit (p : Packer) (ex : Example) : Except PackError (Packer × List PackedRow) :=
  match ex.find? (fun q => (p.spec.lookup q.1).isNone) with
  | some q => .error (.FieldNotDeclared q.1)
  | none =>
    if allEmpty (preprocess p.spec ex) then .ok (p, [])
    else
      match firstFit p.spec p.bins (preprocess p.spec ex) with
      | some i =>
        .ok (⟨p.spec, p.pool_size,
              updateAt p.bins i (fun b => addExample b (preprocess p.spec ex))⟩, [])
      | none =>
        if p.bins.length < p.pool_size then
          .ok (⟨p.spec, p.pool_size,
                p.bins ++ [addExample (emptyBin p.spec) (preprocess p.spec ex)]⟩, [])
        else
          match p.bins with
          | [] =>
            .ok (⟨p.spec, p.pool_size,
                  [addExample (emptyBin p.spec) (preprocess p.spec ex)]⟩, [])
          | b :: rest =>
            .ok (⟨p.spec, p.pool_size,
                  rest ++ [addExample (emptyBin p.spec) (preprocess p.spec ex)]⟩,
                 [emitBin p.spec b])

/-- Modelled from the spec: `drain()` flushes every open bin in
oldest-first order and clears the pool (spec section 4.1). -/
def drain (p : Packer) : Packer × List PackedRow :=
  (⟨p.spec, p.pool_size, []⟩, p.bins.map (emitBin p.spec))

/-- Submit a whole list of examples in order, collecting emitted rows. -/
def submitAll (p : Packer) : List Example → Except PackError (Packer × List PackedRow)
  | [] => .ok (p, [])
  | e :: rest =>
    match submit p e with
    | .error err => .error err
    | .ok r1 =>
      match submitAll r1.1 rest with
      | .error err => .error err
      | .ok r2 => .ok (r2.1, r1.2 ++ r2.2)

/-- Run the packer over a full input stream and drain at the end. -/
def packAll (spec : FieldSpec) (ps : Nat) (exs : List Example) :
    Except PackError (List PackedRow) :=
  match submitAll ⟨spec, ps, []⟩ exs with
  | .error err => .error err
  | .ok r => .ok (r.2 ++ (drain r.1).2)

/-! ## Abstract view of a bin as a list of indexed slices -/

/-- The slices of field `f` contributed by the successive examples of a
bin, numbered by the segment id each received (`k` for the first
example). A slice is recorded even when the example's field is absent
( no slice) or empty (empty slice, contributing nothing). -/
def fieldSlicesFrom (k : Nat) (f : String) : List PEx → List (Nat × List Token)
  | [] => []
  | e :: rest =>
    (match e.lookup f with
     | some xs => [(k, xs)]
     | none => []) ++ fieldSlicesFrom (k + 1) f rest

def slVals (sl : List (Nat × List Token)) : List Token :=
  (sl.map (fun q => q.2)).flatten

def slSegs (sl : List (Nat × List Token)) : List Nat :=
  (sl.map (fun q => List.replicate q.2.length q.1)).flatten

def slPoss (sl : List (Nat × List Token)) : List Nat :=
  (sl.map (fun q => List.range q.2.length)).flatten

/-- Build a bin by adding a list of processed examples to the empty bin. -/
def binOf (spec : FieldSpec) (l : List PEx) : Bin :=
  l.foldl addExample (emptyBin spec)

/-- Stepwise fit: each example of the list fits the bin built from the
previous ones. -/
def fitsAll (spec : FieldSpec) : Bin → List PEx → Bool
  | _, [] => true
  | b, e :: rest => fitsB spec b e && fitsAll spec (addExample b e) rest

/-- The (index, processed example) entries of an input stream that are
actually placed: those whose processed form still has a token. -/
def validEntriesFrom (spec : FieldSpec) (n0 : Nat) : List Example → List (Nat × PEx)
  | [] => []
  | ex :: rest =>
    (if allEmpty (preprocess spec ex) then [] else [(n0, preprocess spec ex)]) ++
      validEntriesFrom spec (n0 + 1) rest

/-- The packed row emitted for a group of (index, processed example)
entries. -/
def emitG (spec : FieldSpec) (g : List (Nat × PEx)) : PackedRow :=
  emitBin spec (binOf spec (g.map (fun q => q.2)))

/-- A well-formed group: its examples fit stepwise from the empty bin and
only touch declared fields. -/
def GoodG (spec : FieldSpec) (g : List (Nat × PEx)) : Prop :=
  fitsAll spec (emptyBin spec) (g.map (fun q => q.2)) = true ∧
    ∀ q ∈ g, ∀ r ∈ q.2, (spec.lookup r.1).isSome = true

/-! ## Association-list lemmas -/

theorem lookup_map_keyed (g : String → α → β) (l : List (String × α)) (f : String) :
    (l.map (fun q => (q.1, g q.1 q.2))).lookup f = (l.lookup f).map (g f) := by
  induction l with
  | nil => rfl
  | cons q rest ih =>
    by_cases h : f = q.1
    · subst h
      simp [List.lookup]
    · have hb : (f == q.1) = false := beq_false_of_ne h
      simp [List.lookup, hb, ih]

theorem lookup_mem {l : List (String × α)} {f : String} {v : α}
    (h : l.lookup f = some v) : (f, v) ∈ l := by
  induction l with
  | nil => simp [List.lookup] at h
  | cons q rest ih =>
    rw [List.lookup] at h
    rcases hb : f == q.1 with _ | _
    · rw [hb] at h
      exact List.mem_cons_of_mem _ (ih h)
    · rw [hb] at h
      have heq : f = q.1 := eq_of_beq hb
      cases h
      have hqq : (f, q.2) = q := by rw [heq]
      rw [hqq]
      exact List.mem_cons_self _ _

/-! ## Effect of `addExample` on a bin -/

theorem next_segment_id_addExample (b : Bin) (ex : PEx) :
    (addExample b ex).next_segment_id = b.next_segment_id + 1 := rfl

theorem fields_lookup_addExample (b : Bin) (ex : PEx) (f : String) :
    ((addExample b ex).fields.lookup f) =
      (b.fields.lookup f).map (fun bf =>
        match ex.lookup f with
        | some xs => addToField bf b.next_segment_id xs
        | none => bf) := by
  have h := lookup_map_keyed
    (fun f0 bf => match ex.lookup f0 with
      | some xs => addToField bf b.next_segment_id xs
      | none => bf) b.fields f
  have he : (addExample b ex).fields =
      b.fields.map (fun q => (q.1,
        match ex.lookup q.1 with
        | some xs => addToField q.2 b.next_segment_id xs
        | none => q.2)) := by
    show b.fields.map _ = b.fields.map _
    apply List.map_congr_left
    intro q _
    cases hq : ex.lookup q.1 <;> simp [hq]
  rw [he, h]

theorem binGet_addExample_none {b : Bin} {ex : PEx} {f : String}
    (h : ex.lookup f = none) : binGet (addExample b ex) f = binGet b f := by
  unfold binGet
  rw [fields_lookup_addExample]
  cases hb : b.fields.lookup f <;> simp [h]

theorem binGet_addExample_some {b : Bin} {ex : PEx} {f : String} {xs : List Token}
    (h : ex.lookup f = some xs) (hk : (b.fields.lookup f).isSome = true) :
    binGet (addExample b ex) f = addToField (binGet b f) b.next_segment_id xs := by
  unfold binGet
  rw [fields_lookup_addExample]
  cases hb : b.fields.lookup f
  · rw [hb] at hk
    simp at hk
  · simp [h]

theorem fields_lookup_isSome_addExample (b : Bin) (ex : PEx) (f : String) :
    ((addExample b ex).fields.lookup f).isSome = (b.fields.lookup f).isSome := by
  rw [fields_lookup_addExample]
  cases hb : b.fields.lookup f <;> simp

theorem binGet_addExample_nokey {b : Bin} {f : String} (h : b.fields.lookup f = none)
    (ex : PEx) : binGet (addExample b ex) f = binGet b f := by
  unfold binGet
  rw [fields_lookup_addExample, h]
  rfl

/-! ## Structure of a bin built by successive additions -/

def addAll (bf : BinField) (sl : List (Nat × List Token)) : BinField :=
  ⟨bf.values ++ slVals sl, bf.segs ++ slSegs sl, bf.poss ++ slPoss sl⟩

theorem slVals_cons (k : Nat) (xs : List Token) (sl : List (Nat × List Token)) :
    slVals ((k, xs) :: sl) = xs ++ slVals sl := by
  simp [slVals]

theorem slSegs_cons (k : Nat) (xs : List Token) (sl : List (Nat × List Token)) :
    slSegs ((k, xs) :: sl) = List.replicate xs.length k ++ slSegs sl := by
  simp [slSegs]

theorem slPoss_cons (k : Nat) (xs : List Token) (sl : List (Nat × List Token)) :
    slPoss ((k, xs) :: sl) = List.range xs.length ++ slPoss sl := by
  simp [slPoss]

theorem addAll_nil (bf : BinField) : addAll bf [] = bf := by
  simp [addAll, slVals, slSegs, slPoss]

theorem addAll_addToField (bf : BinField) (k : Nat) (xs : List Token)
    (sl : List (Nat × List Token)) :
    addAll (addToField bf k xs) sl = addAll bf ((k, xs) :: sl) := by
  simp [addAll, addToField, slVals_cons, slSegs_cons, slPoss_cons]

theorem foldl_addExample_next (l : List PEx) :
    ∀ b : Bin, (l.foldl addExample b).next_segment_id = b.next_segment_id + l.length := by
  induction l with
  | nil => intro b; simp
  | cons e rest ih =>
    intro b
    rw [List.foldl_cons, ih (addExample b e), next_segment_id_addExample]
    simp
    omega

theorem foldl_addExample_binGet (l : List PEx) :
    ∀ b : Bin, (∀ e ∈ l, ∀ r ∈ e, (b.fields.lookup r.1).isSome = true) →
    ∀ f, binGet (l.foldl addExample b) f =
      addAll (binGet b f) (fieldSlicesFrom b.next_segment_id f l) := by
  induction l with
  | nil =>
    intro b _ f
    simp [fieldSlicesFrom, addAll_nil]
  | cons e rest ih =>
    intro b hdecl f
    have hdecl2 : ∀ e2 ∈ rest, ∀ r ∈ e2,
        ((addExample b e).fields.lookup r.1).isSome = true := by
      intro e2 he2 r hr
      rw [fields_lookup_isSome_addExample]
      exact hdecl e2 (List.mem_cons_of_mem _ he2) r hr
    rw [List.foldl_cons, ih (addExample b e) hdecl2 f]
    cases hq : e.lookup f with
    | none =>
      rw [binGet_addExample_none hq]
      simp [fieldSlicesFrom, hq, next_segment_id_addExample]
    | some xs =>
      have hk : (b.fields.lookup f).isSome = true :=
        hdecl e (List.mem_cons_self _ _) (f, xs) (lookup_mem hq)
      rw [binGet_addExample_some hq hk, addAll_addToField]
      simp [fieldSlicesFrom, hq, next_segment_id_addExample]

theorem binGet_emptyBin (spec : FieldSpec) (f : String) :
    binGet (emptyBin spec) f = ⟨[], [], []⟩ := by
  unfold binGet emptyBin
  rw [lookup_map_keyed (fun _ _ => (⟨[], [], []⟩ : BinField)) spec f]
  cases spec.lookup f <;> rfl

theorem emptyBin_lookup_isSome (spec : FieldSpec) (f : String) :
    ((emptyBin spec).fields.lookup f).isSome = (spec.lookup f).isSome := by
  unfold emptyBin
  rw [lookup_map_keyed (fun _ _ => (⟨[], [], []⟩ : BinField)) spec f]
  cases spec.lookup f <;> rfl

/-- Structure of a bin built from a list of declared processed examples:
every field is the concatenation of the examples' slices, with segment
ids `1, 2, ...` in order of addition. -/
theorem binOf_binGet (spec : FieldSpec) (l : List PEx)
    (hdecl : ∀ e ∈ l, ∀ r ∈ e, (spec.lookup r.1).isSome = true) (f : String) :
    binGet (binOf spec l) f =
      ⟨slVals (fieldSlicesFrom 1 f l), slSegs (fieldSlicesFrom 1 f l),
        slPoss (fieldSlicesFrom 1 f l)⟩ := by
  unfold binOf
  have hd : ∀ e ∈ l, ∀ r ∈ e, ((emptyBin spec).fields.lookup r.1).isSome = true := by
    intro e he r hr
    rw [emptyBin_lookup_isSome]
    exact hdecl e he r hr
  rw [foldl_addExample_binGet l (emptyBin spec) hd f, binGet_emptyBin]
  have h1 : (emptyBin spec).next_segment_id = 1 := rfl
  rw [h1]
  simp [addAll]

theorem binOf_next (spec : FieldSpec) (l : List PEx) :
    (binOf spec l).next_segment_id = l.length + 1 := by
  unfold binOf
  rw [foldl_addExample_next]
  show (emptyBin spec).next_segment_id + l.length = l.length + 1
  simp [emptyBin]
  omega

/-! ## Lengths and capacity -/

theorem slSegs_length (sl : List (Nat × List Token)) :
    (slSegs sl).length = (slVals sl).length := by
  induction sl with
  | nil => rfl
  | cons q rest ih =>
    rcases q with ⟨k, xs⟩
    rw [slSegs_cons, slVals_cons]
    simp [ih]

theorem slPoss_length (sl : List (Nat × List Token)) :
    (slPoss sl).length = (slVals sl).length := by
  induction sl with
  | nil => rfl
  | cons q rest ih =>
    rcases q with ⟨k, xs⟩
    rw [slPoss_cons, slVals_cons]
    simp [ih]

theorem fitsAll_le (spec : FieldSpec) : ∀ (l : List PEx) (b : Bin),
    fitsAll spec b l = true →
    ∀ f cap, spec.lookup f = some cap →
    (binGet b f).values.length ≤ cap →
    (binGet (l.foldl addExample b) f).values.length ≤ cap := by
  intro l
  induction l with
  | nil => intro b _ f cap _ hle; exact hle
  | cons e rest ih =>
    intro b hfits f cap hcap hle
    rw [fitsAll, Bool.and_eq_true] at hfits
    rw [List.foldl_cons]
    apply ih (addExample b e) hfits.2 f cap hcap
    cases hk : b.fields.lookup f with
    | none => rw [binGet_addExample_nokey hk]; exact hle
    | some bf =>
      cases hq : e.lookup f with
      | none => rw [binGet_addExample_none hq]; exact hle
      | some xs =>
        rw [binGet_addExample_some hq (by rw [hk]; rfl)]
        show ((binGet b f).values ++ xs).length ≤ cap
        rw [List.length_append]
        have hall := (List.all_eq_true.mp hfits.1) (f, xs) (lookup_mem hq)
        simp only [fitsB, decide_eq_true_eq, hcap] at hall
        simp [Option.getD] at hall
        omega

/-- For a group fitting stepwise, the built bin never exceeds capacity. -/
theorem binOf_le (spec : FieldSpec) (l : List PEx)
    (hfits : fitsAll spec (emptyBin spec) l = true)
    (f : String) (cap : Nat) (hcap : spec.lookup f = some cap) :
    (binGet (binOf spec l) f).values.length ≤ cap := by
  unfold binOf
  apply fitsAll_le spec l (emptyBin spec) hfits f cap hcap
  rw [binGet_emptyBin]
  exact Nat.zero_le _

theorem padTo_length {cap : Nat} {xs : List α} (z : α) (h : xs.length ≤ cap) :
    (padTo cap z xs).length = cap := by
  unfold padTo
  rw [List.length_append, List.length_replicate]
  omega

theorem emitBin_lookup (spec : FieldSpec) (b : Bin) (f : String) :
    (emitBin spec b).lookup f = (spec.lookup f).map (fun cap =>
      ⟨padTo cap 0 (binGet b f).values, padTo cap 0 (binGet b f).segs,
        padTo cap 0 (binGet b f).poss⟩) := by
  unfold emitBin
  exact lookup_map_keyed (fun f0 cap =>
    (⟨padTo cap 0 (binGet b f0).values, padTo cap 0 (binGet b f0).segs,
      padTo cap 0 (binGet b f0).poss⟩ : PackedField)) spec f

/-! ## Preprocessing lemmas -/

theorem preprocessField_le (cap : Nat) (xs : List Token) :
    (preprocessField cap xs).length ≤ cap := by
  unfold preprocessField
  simp

theorem mem_preprocess {spec : FieldSpec} {ex : Example} {r : String × List Token}
    (h : r ∈ preprocess spec ex) :
    ∃ cap xs, spec.lookup r.1 = some cap ∧ (r.1, xs) ∈ ex ∧ r.2 = preprocessField cap xs := by
  unfold preprocess at h
  rcases List.mem_filterMap.mp h with ⟨q, hq, hmap⟩
  cases hs : spec.lookup q.1 with
  | none => rw [hs] at hmap; simp at hmap
  | some cap =>
    rw [hs] at hmap
    simp at hmap
    refine ⟨cap, q.2, ?_, ?_, ?_⟩
    · rw [← hmap]; exact hs
    · rw [← hmap]; exact hq
    · rw [← hmap]

theorem preprocess_declared {spec : FieldSpec} {ex : Example} :
    ∀ r ∈ preprocess spec ex, (spec.lookup r.1).isSome = true := by
  intro r hr
  rcases mem_preprocess hr with ⟨cap, xs, hcap, _, _⟩
  rw [hcap]
  rfl

theorem preprocess_lookup (spec : FieldSpec) (ex : Example) (f : String) (cap : Nat)
    (hcap : spec.lookup f = some cap) :
    (preprocess spec ex).lookup f = (ex.lookup f).map (preprocessField cap) := by
  induction ex with
  | nil => rfl
  | cons q rest ih =>
    rcases q with ⟨qk, qv⟩
    unfold preprocess
    rw [List.filterMap_cons]
    by_cases h : f = qk
    · subst h
      rw [hcap]
      show List.lookup f ((f, preprocessField cap qv) :: preprocess spec rest) =
        Option.map (preprocessField cap) (List.lookup f ((f, qv) :: rest))
      rw [List.lookup, List.lookup, beq_self_eq_true]
      rfl
    · have hb : (f == qk) = false := beq_false_of_ne h
      cases hs : spec.lookup qk with
      | none =>
        show (preprocess spec rest).lookup f =
          Option.map (preprocessField cap) (List.lookup f ((qk, qv) :: rest))
        rw [List.lookup, hb]
        exact ih
      | some c2 =>
        show List.lookup f ((qk, preprocessField c2 qv) :: preprocess spec rest) =
          Option.map (preprocessField cap) (List.lookup f ((qk, qv) :: rest))
        rw [List.lookup, hb, List.lookup, hb]
        exact ih

/-- A preprocessed example always fits an empty bin: truncation ensures a
field can never on its own prevent placement. -/
theorem fitsB_emptyBin (spec : FieldSpec) (ex : Example) :
    fitsB spec (emptyBin spec) (preprocess spec ex) = true := by
  unfold fitsB
  rw [List.all_eq_true]
  intro q hq
  rcases mem_preprocess hq with ⟨cap, xs, hcap, _, hval⟩
  rw [binGet_emptyBin, hcap, hval]
  simp
  exact preprocessField_le cap xs

/-! ## `firstFit` and `updateAt` -/

theorem firstFit_none {spec : FieldSpec} {bins : List Bin} {ex : PEx}
    (h : firstFit spec bins ex = none) : ∀ b ∈ bins, fitsB spec b ex = false := by
  induction bins with
  | nil => intro b hb; simp at hb
  | cons b0 rest ih =>
    intro b hb
    rw [firstFit] at h
    by_cases hf : fitsB spec b0 ex = true
    · rw [if_pos hf] at h; simp at h
    · rw [if_neg hf] at h
      rcases List.mem_cons.mp hb with hb0 | hbr
      · rw [hb0]; exact Bool.eq_false_iff.mpr hf
      · cases hrest : firstFit spec rest ex with
        | none => exact ih hrest b hbr
        | some j => rw [hrest] at h; simp at h

theorem firstFit_some {spec : FieldSpec} {bins : List Bin} {ex : PEx} {i : Nat}
    (h : firstFit spec bins ex = some i) :
    ∃ hlt : i < bins.length,
      fitsB spec (bins.get ⟨i, hlt⟩) ex = true ∧
      ∀ j (hj : j < bins.length), j < i → fitsB spec (bins.get ⟨j, hj⟩) ex = false := by
  induction bins generalizing i with
  | nil => rw [firstFit] at h; simp at h
  | cons b0 rest ih =>
    rw [firstFit] at h
    by_cases hf : fitsB spec b0 ex = true
    · rw [if_pos hf] at h
      cases h
      exact ⟨Nat.succ_pos _, hf, fun j hj hji => absurd hji (Nat.not_lt_zero j)⟩
    · rw [if_neg hf] at h
      cases hrest : firstFit spec rest ex with
      | none => rw [hrest] at h; simp at h
      | some i0 =>
        rw [hrest] at h
        simp at h
        subst h
        rcases ih hrest with ⟨hlt, hfit, hmin⟩
        have hlt1 : i0 + 1 < (b0 :: rest).length := by
          rw [List.length_cons]; omega
        refine ⟨hlt1, ?_, ?_⟩
        · exact hfit
        · intro j hj hji
          cases j with
          | zero => exact Bool.eq_false_iff.mpr hf
          | succ j0 =>
            have hj0 : j0 < rest.length := by
              rw [List.length_cons] at hj; omega
            show fitsB spec (rest.get ⟨j0, hj0⟩) ex = false
            exact hmin j0 hj0 (by omega)

theorem updateAt_eq (l : List α) (i : Nat) (g : α → α) (h : i < l.length) :
    updateAt l i g = l.take i ++ g (l.get ⟨i, h⟩) :: l.drop (i + 1) := by
  induction l generalizing i with
  | nil => simp at h
  | cons a rest ih =>
    cases i with
    | zero => rfl
    | succ n =>
      have hn : n < rest.length := by simp at h; omega
      show a :: updateAt rest n g = a :: (rest.take n ++ g (rest.get ⟨n, hn⟩) :: rest.drop (n + 1))
      rw [ih n hn]

theorem updateAt_map (F : α → β) (g : α → α) (g2 : β → β)
    (hcomm : ∀ a, F (g a) = g2 (F a)) (l : List α) (i : Nat) :
    (updateAt l i g).map F = updateAt (l.map F) i g2 := by
  induction l generalizing i with
  | nil => rfl
  | cons a rest ih =>
    cases i with
    | zero =>
      show F (g a) :: rest.map F = g2 (F a) :: rest.map F
      rw [hcomm]
    | succ n =>
      show F a :: (updateAt rest n g).map F = F a :: updateAt (rest.map F) n g2
      rw [ih]

theorem mem_updateAt {l : List α} {i : Nat} {g : α → α} {x : α}
    (h : x ∈ updateAt l i g) : x ∈ l ∨ ∃ a ∈ l, x = g a := by
  induction l generalizing i with
  | nil => simp [updateAt] at h
  | cons a rest ih =>
    cases i with
    | zero =>
      rcases List.mem_cons.mp h with h0 | hr
      · right; exact ⟨a, List.mem_cons_self _ _, h0⟩
      · left; exact List.mem_cons_of_mem _ hr
    | succ n =>
      rcases List.mem_cons.mp h with h0 | hr
      · left; rw [h0]; exact List.mem_cons_self _ _
      · rcases ih hr with hl | ⟨a2, ha2, hx⟩
        · left; exact List.mem_cons_of_mem _ hl
        · right; exact ⟨a2, List.mem_cons_of_mem _ ha2, hx⟩

theorem flatten_updateAt_append (gs : List (List α)) (i : Nat) (h : i < gs.length) (e : α) :
    (updateAt gs i (fun g => g ++ [e])).flatten.Perm (gs.flatten ++ [e]) := by
  rw [updateAt_eq gs i _ h]
  have hdecomp : gs.take i ++ gs.get ⟨i, h⟩ :: gs.drop (i + 1) = gs := by
    rw [List.get_eq_getElem, List.getElem_cons_drop, List.take_append_drop]
  conv_rhs => rw [← hdecomp]
  rw [List.flatten_append, List.flatten_cons, List.flatten_append, List.flatten_cons]
  have h1 : ((gs.get ⟨i, h⟩ ++ [e]) ++ (gs.drop (i + 1)).flatten).Perm
      ((gs.get ⟨i, h⟩ ++ (gs.drop (i + 1)).flatten) ++ [e]) := by
    rw [List.append_assoc, List.append_assoc]
    exact List.Perm.append_left _ List.perm_append_comm
  have h2 := List.Perm.append_left (gs.take i).flatten h1
  simpa [List.append_assoc] using h2

/-! ## Characterization of `submit` -/

theorem binOf_append_one (spec : FieldSpec) (l : List PEx) (e : PEx) :
    binOf spec (l ++ [e]) = addExample (binOf spec l) e := by
  unfold binOf
  rw [List.foldl_append]
  rfl

theorem fitsAll_append_one (spec : FieldSpec) : ∀ (l : List PEx) (b : Bin) (e : PEx),
    fitsAll spec b l = true → fitsB spec (l.foldl addExample b) e = true →
    fitsAll spec b (l ++ [e]) = true := by
  intro l
  induction l with
  | nil =>
    intro b e _ hf
    show fitsAll spec b [e] = true
    rw [fitsAll, fitsAll]
    simp
    exact hf
  | cons e0 rest ih =>
    intro b e hall hf
    rw [fitsAll, Bool.and_eq_true] at hall
    rw [List.cons_append, fitsAll, Bool.and_eq_true]
    refine ⟨hall.1, ih (addExample b e0) e hall.2 ?_⟩
    rw [List.foldl_cons] at hf
    exact hf

theorem submit_find_none {p : Packer} {ex : Example}
    (hdecl : ∀ r ∈ ex, (p.spec.lookup r.1).isSome = true) :
    ex.find? (fun q => (p.spec.lookup q.1).isNone) = none := by
  rw [List.find?_eq_none]
  intro q hq
  have h := hdecl q hq
  cases hs : p.spec.lookup q.1 with
  | none => rw [hs] at h; simp at h
  | some c => simp [hs]

/-- `submit` on an example whose processed form is empty is a no-op. -/
theorem submit_eq_of_empty {p : Packer} {ex : Example}
    (hdecl : ∀ r ∈ ex, (p.spec.lookup r.1).isSome = true)
    (hemp : allEmpty (preprocess p.spec ex) = true) :
    submit p ex = .ok (p, []) := by
  unfold submit
  simp only [submit_find_none hdecl]
  rw [if_pos hemp]

/-- `submit` surfaces `FieldNotDeclared` whenever some field of the
example is not declared in the field spec. -/
theorem submit_eq_of_undeclared {p : Packer} {ex : Example}
    (h : ∃ r ∈ ex, p.spec.lookup r.1 = none) :
    ∃ f, submit p ex = .error (.FieldNotDeclared f) ∧
      (∃ xs, (f, xs) ∈ ex) ∧ p.spec.lookup f = none := by
  rcases h with ⟨r, hr, hnone⟩
  have hsome : (ex.find? (fun q => (p.spec.lookup q.1).isNone)).isSome = true := by
    rw [List.find?_isSome]
    exact ⟨r, hr, by simp [hnone]⟩
  cases hfind : ex.find? (fun q => (p.spec.lookup q.1).isNone) with
  | none => rw [hfind] at hsome; simp at hsome
  | some q =>
    refine ⟨q.1, ?_, ?_, ?_⟩
    · unfold submit
      simp only [hfind]
    · exact ⟨q.2, List.mem_of_find?_eq_some hfind⟩
    · have hp := List.find?_some hfind
      cases hs : p.spec.lookup q.1 with
      | none => rfl
      | some c => rw [hs] at hp; simp at hp

/-- Full case analysis of a successful non-trivial `submit`: first-fit
into the oldest fitting bin, else a fresh bin if the pool has room, else
eviction of the oldest bin. -/
theorem submit_cases {p : Packer} {ex : Example}
    (hdecl : ∀ r ∈ ex, (p.spec.lookup r.1).isSome = true)
    (hne : allEmpty (preprocess p.spec ex) = false) :
    (∃ i, ∃ hlt : i < p.bins.length,
        fitsB p.spec (p.bins.get ⟨i, hlt⟩) (preprocess p.spec ex) = true ∧
        (∀ j (hj : j < p.bins.length), j < i →
          fitsB p.spec (p.bins.get ⟨j, hj⟩) (preprocess p.spec ex) = false) ∧
        submit p ex = .ok (⟨p.spec, p.pool_size,
          updateAt p.bins i (fun b => addExample b (preprocess p.spec ex))⟩, [])) ∨
    ((∀ b ∈ p.bins, fitsB p.spec b (preprocess p.spec ex) = false) ∧
      p.bins.length < p.pool_size ∧
      submit p ex = .ok (⟨p.spec, p.pool_size,
        p.bins ++ [addExample (emptyBin p.spec) (preprocess p.spec ex)]⟩, [])) ∨
    ((∀ b ∈ p.bins, fitsB p.spec b (preprocess p.spec ex) = false) ∧
      ¬ p.bins.length < p.pool_size ∧
      ((p.bins = [] ∧ submit p ex = .ok (⟨p.spec, p.pool_size,
          [addExample (emptyBin p.spec) (preprocess p.spec ex)]⟩, [])) ∨
       (∃ b rest, p.bins = b :: rest ∧ submit p ex = .ok (⟨p.spec, p.pool_size,
          rest ++ [addExample (emptyBin p.spec) (preprocess p.spec ex)]⟩,
          [emitBin p.spec b])))) := by
  have hfind := submit_find_none hdecl
  cases hff : firstFit p.spec p.bins (preprocess p.spec ex) with
  | some i =>
    left
    rcases firstFit_some hff with ⟨hlt, hfit, hmin⟩
    refine ⟨i, hlt, hfit, hmin, ?_⟩
    unfold submit
    simp only [hfind]
    rw [if_neg (by rw [hne]; exact Bool.false_ne_true), hff]
  | none =>
    right
    have hnofit := firstFit_none hff
    by_cases hroom : p.bins.length < p.pool_size
    · left
      refine ⟨hnofit, hroom, ?_⟩
      unfold submit
      simp only [hfind]
      rw [if_neg (by rw [hne]; exact Bool.false_ne_true), hff, if_pos hroom]
    · right
      refine ⟨hnofit, hroom, ?_⟩
      cases hbins : p.bins with
      | nil =>
        left
        refine ⟨rfl, ?_⟩
        unfold submit
        simp only [hfind]
        rw [if_neg (by rw [hne]; exact Bool.false_ne_true), hff, if_neg hroom, hbins]
      | cons b rest =>
        right
        refine ⟨b, rest, rfl, ?_⟩
        unfold submit
        simp only [hfind]
        rw [if_neg (by rw [hne]; exact Bool.false_ne_true), hff, if_neg hroom, hbins]

/-! ## The run invariant: every reachable bin is the bin of a group of
placed examples, and the placed entries partition the nonempty inputs -/

theorem get_map_at (f : α → β) (l : List α) (i : Nat) (h1 : i < (l.map f).length)
    (h2 : i < l.length) : (l.map f).get ⟨i, h1⟩ = f (l.get ⟨i, h2⟩) := by
  rw [List.get_eq_getElem, List.get_eq_getElem, List.getElem_map]

theorem submitAll_run (spec : FieldSpec) (ps : Nat) :
    ∀ (exs : List Example) (n0 : Nat) (gs : List (List (Nat × PEx))),
    (∀ ex ∈ exs, ∀ r ∈ ex, (spec.lookup r.1).isSome = true) →
    (∀ g ∈ gs, GoodG spec g) →
    ∃ egs gs2 : List (List (Nat × PEx)),
      submitAll ⟨spec, ps, gs.map (fun g => binOf spec (g.map (fun q => q.2)))⟩ exs =
        .ok (⟨spec, ps, gs2.map (fun g => binOf spec (g.map (fun q => q.2)))⟩,
             egs.map (emitG spec)) ∧
      (∀ g ∈ egs, GoodG spec g) ∧ (∀ g ∈ gs2, GoodG spec g) ∧
      ((egs ++ gs2).flatten).Perm (gs.flatten ++ validEntriesFrom spec n0 exs) := by
  intro exs
  induction exs with
  | nil =>
    intro n0 gs hdecl hgood
    refine ⟨[], gs, rfl, fun g hg => absurd hg (List.not_mem_nil g), hgood, ?_⟩
    show (([] ++ gs).flatten).Perm (gs.flatten ++ validEntriesFrom spec n0 [])
    rw [validEntriesFrom]
    simp
  | cons ex rest ih =>
    intro n0 gs hdecl hgood
    have hdex : ∀ r ∈ ex, (spec.lookup r.1).isSome = true :=
      hdecl ex (List.mem_cons_self _ _)
    have hdrest : ∀ e ∈ rest, ∀ r ∈ e, (spec.lookup r.1).isSome = true :=
      fun e he => hdecl e (List.mem_cons_of_mem _ he)
    cases hemp : allEmpty (preprocess spec ex) with
    | true =>
      have hsub : submit ⟨spec, ps, gs.map (fun g => binOf spec (g.map (fun q => q.2)))⟩ ex =
          .ok (⟨spec, ps, gs.map (fun g => binOf spec (g.map (fun q => q.2)))⟩, []) :=
        submit_eq_of_empty hdex hemp
      rcases ih (n0 + 1) gs hdrest hgood with ⟨egs, gs2, hrun, hge, hgs2, hperm⟩
      refine ⟨egs, gs2, ?_, hge, hgs2, ?_⟩
      · unfold submitAll
        simp only [hsub, hrun]
        rfl
      · rw [validEntriesFrom, if_pos hemp]
        simpa using hperm
    | false =>
      rcases submit_cases (p := ⟨spec, ps, gs.map (fun g => binOf spec (g.map (fun q => q.2)))⟩)
          hdex hemp with
        ⟨i, hlt, hfit, _, hsub⟩ | ⟨hnofit, hroom, hsub⟩ | ⟨hnofit, hfull, hrest⟩
      · -- first-fit into open bin i
        dsimp only at hlt hfit hsub
        have hlen : i < gs.length := by
          rw [List.length_map] at hlt
          exact hlt
        have hcomm : ∀ a, binOf spec ((a ++ [(n0, preprocess spec ex)]).map (fun q => q.2)) =
            addExample (binOf spec (a.map (fun q => q.2))) (preprocess spec ex) := by
          intro a
          rw [List.map_append]
          show binOf spec (a.map (fun q => q.2) ++ [preprocess spec ex]) = _
          exact binOf_append_one spec _ _
        have hbins : updateAt (gs.map (fun g => binOf spec (g.map (fun q => q.2)))) i
            (fun b => addExample b (preprocess spec ex)) =
            (updateAt gs i (fun g => g ++ [(n0, preprocess spec ex)])).map
              (fun g => binOf spec (g.map (fun q => q.2))) := by
          rw [updateAt_map (fun g => binOf spec (g.map (fun q => q.2)))
            (fun g => g ++ [(n0, preprocess spec ex)])
            (fun b => addExample b (preprocess spec ex)) hcomm gs i]
        rw [hbins] at hsub
        have hfit2 : fitsB spec (binOf spec ((gs.get ⟨i, hlen⟩).map (fun q => q.2)))
            (preprocess spec ex) = true := by
          rw [get_map_at (fun g => binOf spec (g.map (fun q => q.2))) gs i hlt hlen] at hfit
          exact hfit
        have hgoodi : GoodG spec (gs.get ⟨i, hlen⟩ ++ [(n0, preprocess spec ex)]) := by
          rcases hgood (gs.get ⟨i, hlen⟩) (List.get_mem gs i hlen) with ⟨hfa, hdg⟩
          constructor
          · rw [List.map_append]
            show fitsAll spec (emptyBin spec)
              ((gs.get ⟨i, hlen⟩).map (fun q => q.2) ++ [preprocess spec ex]) = true
            exact fitsAll_append_one spec _ _ _ hfa hfit2
          · intro q hq r hr
            rcases List.mem_append.mp hq with hq1 | hq2
            · exact hdg q hq1 r hr
            · have : q = (n0, preprocess spec ex) := by simpa using hq2
              rw [this] at hr
              exact preprocess_declared r hr
        have hgood1 : ∀ g ∈ updateAt gs i (fun g => g ++ [(n0, preprocess spec ex)]),
            GoodG spec g := by
          intro g hg
          rw [updateAt_eq gs i _ hlen] at hg
          rcases List.mem_append.mp hg with hg1 | hg2
          · exact hgood g (List.take_subset i gs hg1)
          · rcases List.mem_cons.mp hg2 with hg3 | hg4
            · rw [hg3]; exact hgoodi
            · exact hgood g (List.drop_subset _ gs hg4)
        rcases ih (n0 + 1) (updateAt gs i (fun g => g ++ [(n0, preprocess spec ex)]))
          hdrest hgood1 with ⟨egs, gs2, hrun, hge, hgs2, hperm⟩
        refine ⟨egs, gs2, ?_, hge, hgs2, ?_⟩
        · unfold submitAll
          simp only [hsub, hrun]
          rfl
        · have hg1 := flatten_updateAt_append gs i hlen (n0, preprocess spec ex)
          have hstep := hperm.trans
            (List.Perm.append_right (validEntriesFrom spec (n0 + 1) rest) hg1)
          rw [validEntriesFrom, if_neg (by rw [hemp]; exact Bool.false_ne_true)]
          simpa [List.append_assoc] using hstep
      · -- no bin fits, pool has room: fresh bin
        dsimp only at hnofit hroom hsub
        have hbins : gs.map (fun g => binOf spec (g.map (fun q => q.2))) ++
            [addExample (emptyBin spec) (preprocess spec ex)] =
            (gs ++ [[(n0, preprocess spec ex)]]).map
              (fun g => binOf spec (g.map (fun q => q.2))) := by
          rw [List.map_append]
          rfl
        rw [hbins] at hsub
        have hgood1 : ∀ g ∈ gs ++ [[(n0, preprocess spec ex)]], GoodG spec g := by
          intro g hg
          rcases List.mem_append.mp hg with hg1 | hg2
          · exact hgood g hg1
          · have : g = [(n0, preprocess spec ex)] := by simpa using hg2
            rw [this]
            constructor
            · show fitsAll spec (emptyBin spec) [preprocess spec ex] = true
              rw [fitsAll, fitsAll]
              simp
              exact fitsB_emptyBin spec ex
            · intro q hq r hr
              have : q = (n0, preprocess spec ex) := by simpa using hq
              rw [this] at hr
              exact preprocess_declared r hr
        rcases ih (n0 + 1) (gs ++ [[(n0, preprocess spec ex)]]) hdrest hgood1 with
          ⟨egs, gs2, hrun, hge, hgs2, hperm⟩
        refine ⟨egs, gs2, ?_, hge, hgs2, ?_⟩
        · unfold submitAll
          simp only [hsub, hrun]
          rfl
        · rw [validEntriesFrom, if_neg (by rw [hemp]; exact Bool.false_ne_true)]
          have : (gs ++ [[(n0, preprocess spec ex)]]).flatten =
              gs.flatten ++ [(n0, preprocess spec ex)] := by
            simp
          rw [this] at hperm
          simpa [List.append_assoc] using hperm
      · -- pool full, no fit: evict oldest
        rcases hrest with ⟨hnil, hsub⟩ | ⟨b, restBins, hbeq, hsub⟩
        · -- degenerate: empty pool counted as full (pool_size = 0)
          dsimp only at hnil hsub
          have hgs : gs = [] := by
            cases gs with
            | nil => rfl
            | cons g0 gsr => simp at hnil
          subst hgs
          have hbins : [addExample (emptyBin spec) (preprocess spec ex)] =
              [[(n0, preprocess spec ex)]].map
                (fun g => binOf spec (g.map (fun q => q.2))) := rfl
          rw [hbins] at hsub
          have hgood1 : ∀ g ∈ [[(n0, preprocess spec ex)]], GoodG spec g := by
            intro g hg
            have : g = [(n0, preprocess spec ex)] := by simpa using hg
            rw [this]
            constructor
            · show fitsAll spec (emptyBin spec) [preprocess spec ex] = true
              rw [fitsAll, fitsAll]
              simp
              exact fitsB_emptyBin spec ex
            · intro q hq r hr
              have : q = (n0, preprocess spec ex) := by simpa using hq
              rw [this] at hr
              exact preprocess_declared r hr
          rcases ih (n0 + 1) [[(n0, preprocess spec ex)]] hdrest hgood1 with
            ⟨egs, gs2, hrun, hge, hgs2, hperm⟩
          refine ⟨egs, gs2, ?_, hge, hgs2, ?_⟩
          · unfold submitAll
            simp only [hsub, hrun]
            rfl
          · rw [validEntriesFrom, if_neg (by rw [hemp]; exact Bool.false_ne_true)]
            simpa using hperm
        · -- genuine eviction of the oldest bin
          dsimp only at hbeq hsub
          cases gs with
          | nil => simp at hbeq
          | cons g0 gsrest =>
            rw [List.map_cons] at hbeq
            injection hbeq with hb hrestBins
            rw [← hb, ← hrestBins] at hsub
            have hbins : gsrest.map (fun g => binOf spec (g.map (fun q => q.2))) ++
                [addExample (emptyBin spec) (preprocess spec ex)] =
                (gsrest ++ [[(n0, preprocess spec ex)]]).map
                  (fun g => binOf spec (g.map (fun q => q.2))) := by
              rw [List.map_append]
              rfl
            rw [hbins] at hsub
            have hgood1 : ∀ g ∈ gsrest ++ [[(n0, preprocess spec ex)]], GoodG spec g := by
              intro g hg
              rcases List.mem_append.mp hg with hg1 | hg2
              · exact hgood g (List.mem_cons_of_mem _ hg1)
              · have : g = [(n0, preprocess spec ex)] := by simpa using hg2
                rw [this]
                constructor
                · show fitsAll spec (emptyBin spec) [preprocess spec ex] = true
                  rw [fitsAll, fitsAll]
                  simp
                  exact fitsB_emptyBin spec ex
                · intro q hq r hr
                  have : q = (n0, preprocess spec ex) := by simpa using hq
                  rw [this] at hr
                  exact preprocess_declared r hr
            rcases ih (n0 + 1) (gsrest ++ [[(n0, preprocess spec ex)]]) hdrest hgood1 with
              ⟨egs, gs2, hrun, hge, hgs2, hperm⟩
            refine ⟨g0 :: egs, gs2, ?_, ?_, hgs2, ?_⟩
            · unfold submitAll
              simp only [hsub, hrun]
              rfl
            · intro g hg
              rcases List.mem_cons.mp hg with hg1 | hg2
              · rw [hg1]; exact hgood g0 (List.mem_cons_self _ _)
              · exact hge g hg2
            · rw [validEntriesFrom, if_neg (by rw [hemp]; exact Bool.false_ne_true)]
              have hflat : (gsrest ++ [[(n0, preprocess spec ex)]]).flatten =
                  gsrest.flatten ++ [(n0, preprocess spec ex)] := by
                simp
              rw [hflat] at hperm
              have hstep := List.Perm.append_left g0 hperm
              simpa [List.append_assoc] using hstep

/-- Top-level characterization of a successful full run: the emitted rows
are exactly the rows of a list of groups, each group fits stepwise and is
declared, and the placed entries are a permutation of the nonempty
processed inputs (so every nonempty input is placed exactly once). -/
theorem packAll_groups (spec : FieldSpec) (ps : Nat) (exs : List Example)
    (hdecl : ∀ ex ∈ exs, ∀ r ∈ ex, (spec.lookup r.1).isSome = true)
    {rows : List PackedRow} (h : packAll spec ps exs = .ok rows) :
    ∃ egs : List (List (Nat × PEx)),
      rows = egs.map (emitG spec) ∧
      (∀ g ∈ egs, GoodG spec g) ∧
      (egs.flatten).Perm (validEntriesFrom spec 0 exs) := by
  rcases submitAll_run spec ps exs 0 [] hdecl
      (fun g hg => absurd hg (List.not_mem_nil g)) with
    ⟨egs, gs2, hrun, hge, hgs2, hperm⟩
  rw [List.map_nil] at hrun
  unfold packAll at h
  rw [hrun] at h
  simp only [drain] at h
  rw [List.map_map] at h
  have hh : rows = egs.map (emitG spec) ++ gs2.map (emitG spec) := by
    have := h
    injection this with h2
    rw [← h2]
    rfl
  refine ⟨egs ++ gs2, ?_, ?_, ?_⟩
  · rw [hh, List.map_append]
  · intro g hg
    rcases List.mem_append.mp hg with h1 | h2
    · exact hge g h1
    · exact hgs2 g h2
  · simpa using hperm

theorem lookup_of_mem_nodup {l : List (String × α)} (hnd : (l.map Prod.fst).Nodup)
    {k : String} {v : α} (h : (k, v) ∈ l) : l.lookup k = some v := by
  induction l with
  | nil => simp at h
  | cons q rest ih =>
    rw [List.map_cons, List.nodup_cons] at hnd
    rcases List.mem_cons.mp h with h1 | h2
    · rcases q with ⟨qk, qv⟩
      injection h1 with hk hv
      subst hk
      subst hv
      show List.lookup k ((k, v) :: rest) = some v
      rw [List.lookup, beq_self_eq_true]
    · have hkr : k ∈ rest.map Prod.fst := by
        exact List.mem_map.mpr ⟨(k, v), h2, rfl⟩
      have hne : k ≠ q.1 := by
        intro he
        exact hnd.1 (he ▸ hkr)
      rcases q with ⟨qk, qv⟩
      show List.lookup k ((qk, qv) :: rest) = some v
      rw [List.lookup, beq_false_of_ne hne]
      exact ih hnd.2 h2

/-- The field `f` of the row emitted for a well-formed group: padded
slice concatenations, with the unpadded part within capacity. -/
theorem emitG_field (spec : FieldSpec) (g : List (Nat × PEx)) (hgood : GoodG spec g)
    (f : String) (cap : Nat) (hcap : spec.lookup f = some cap) :
    (emitG spec g).lookup f = some
      ⟨padTo cap 0 (slVals (fieldSlicesFrom 1 f (g.map (fun q => q.2)))),
       padTo cap 0 (slSegs (fieldSlicesFrom 1 f (g.map (fun q => q.2)))),
       padTo cap 0 (slPoss (fieldSlicesFrom 1 f (g.map (fun q => q.2))))⟩ ∧
    (slVals (fieldSlicesFrom 1 f (g.map (fun q => q.2)))).length ≤ cap := by
  have hdecl : ∀ e ∈ g.map (fun q => q.2), ∀ r ∈ e, (spec.lookup r.1).isSome = true := by
    intro e he r hr
    rcases List.mem_map.mp he with ⟨q, hq, hqe⟩
    exact hgood.2 q hq r (hqe ▸ hr)
  have hbg := binOf_binGet spec (g.map (fun q => q.2)) hdecl f
  have hle : (slVals (fieldSlicesFrom 1 f (g.map (fun q => q.2)))).length ≤ cap := by
    have h1 := binOf_le spec (g.map (fun q => q.2)) hgood.1 f cap hcap
    rw [hbg] at h1
    exact h1
  constructor
  · unfold emitG
    rw [emitBin_lookup, hcap, hbg]
    rfl
  · exact hle

/-! ## Per-segment subsequences -/

/-- The subsequence of `xs` at the indices where the parallel list `segs`
equals `s`. -/
def subseqWhere (segs : List Nat) (xs : List Nat) (s : Nat) : List Nat :=
  ((segs.zip xs).filter (fun q => q.1 == s)).map (fun q => q.2)

theorem subseqWhere_append {a1 b1 : List Nat} (a2 b2 : List Nat)
    (h : a1.length = b1.length) (s : Nat) :
    subseqWhere (a1 ++ a2) (b1 ++ b2) s = subseqWhere a1 b1 s ++ subseqWhere a2 b2 s := by
  unfold subseqWhere
  rw [List.zip_append h, List.filter_append, List.map_append]

theorem subseqWhere_replicate_self (xs : List Nat) (s : Nat) :
    subseqWhere (List.replicate xs.length s) xs s = xs := by
  induction xs with
  | nil => rfl
  | cons x rest ih =>
    show subseqWhere (List.replicate (rest.length + 1) s) (x :: rest) s = x :: rest
    rw [List.replicate_succ]
    unfold subseqWhere
    rw [List.zip_cons_cons, List.filter_cons]
    simp only [beq_self_eq_true, if_true]
    rw [List.map_cons]
    unfold subseqWhere at ih
    rw [ih]

theorem subseqWhere_replicate_ne {i s : Nat} (h : i ≠ s) :
    ∀ (n : Nat) (xs : List Nat), subseqWhere (List.replicate n i) xs s = [] := by
  intro n
  induction n with
  | zero => intro xs; rfl
  | succ m ih =>
    intro xs
    cases xs with
    | nil =>
      unfold subseqWhere
      rw [List.zip_nil_right]
      rfl
    | cons x rest =>
      rw [List.replicate_succ]
      unfold subseqWhere
      rw [List.zip_cons_cons, List.filter_cons]
      have hb : ((i : Nat) == s) = false := beq_false_of_ne h
      simp only [hb, Bool.false_eq_true, if_false]
      unfold subseqWhere at ih
      exact ih rest

theorem subseqWhere_all_ne {segs : List Nat} {s : Nat} (h : ∀ a ∈ segs, a ≠ s) :
    ∀ xs, subseqWhere segs xs s = [] := by
  induction segs with
  | nil => intro xs; rfl
  | cons a rest ih =>
    intro xs
    cases xs with
    | nil =>
      unfold subseqWhere
      rw [List.zip_nil_right]
      rfl
    | cons x xr =>
      unfold subseqWhere
      rw [List.zip_cons_cons, List.filter_cons]
      have hb : (a == s) = false := beq_false_of_ne (h a (List.mem_cons_self _ _))
      simp only [hb, Bool.false_eq_true, if_false]
      have ih2 := ih (fun b hb2 => h b (List.mem_cons_of_mem _ hb2)) xr
      unfold subseqWhere at ih2
      exact ih2

theorem fieldSlicesFrom_id_bounds (f : String) : ∀ (l : List PEx) (k : Nat)
    (q : Nat × List Token), q ∈ fieldSlicesFrom k f l → k ≤ q.1 ∧ q.1 < k + l.length := by
  intro l
  induction l with
  | nil =>
    intro k q hq
    rw [fieldSlicesFrom] at hq
    simp at hq
  | cons e rest ih =>
    intro k q hq
    cases he : e.lookup f with
    | none =>
      rw [fieldSlicesFrom, he] at hq
      rw [List.nil_append] at hq
      have := ih (k + 1) q hq
      rw [List.length_cons]
      omega
    | some xs =>
      rw [fieldSlicesFrom, he] at hq
      rw [List.singleton_append] at hq
      rcases List.mem_cons.mp hq with h1 | h2
      · rw [h1, List.length_cons]
        simp
      · have := ih (k + 1) q h2
        rw [List.length_cons]
        omega

theorem mem_slSegs : ∀ (sl : List (Nat × List Token)) (a : Nat),
    a ∈ slSegs sl → ∃ q ∈ sl, a = q.1 := by
  intro sl
  induction sl with
  | nil =>
    intro a ha
    simp [slSegs] at ha
  | cons q rest ih =>
    intro a ha
    rcases q with ⟨k, xs⟩
    rw [slSegs_cons] at ha
    rcases List.mem_append.mp ha with h1 | h2
    · exact ⟨(k, xs), List.mem_cons_self _ _, List.eq_of_mem_replicate h1⟩
    · rcases ih a h2 with ⟨q2, hq2, he2⟩
      exact ⟨q2, List.mem_cons_of_mem _ hq2, he2⟩

/-- Within the slice concatenation of any field, the positions carried by
any one segment id form an initial range `0, 1, ..., m-1`. -/
theorem subseq_slices_range (f : String) : ∀ (l : List PEx) (k : Nat) (s : Nat),
    ∃ m, subseqWhere (slSegs (fieldSlicesFrom k f l)) (slPoss (fieldSlicesFrom k f l)) s =
      List.range m := by
  intro l
  induction l with
  | nil => intro k s; exact ⟨0, rfl⟩
  | cons e rest ih =>
    intro k s
    cases he : e.lookup f with
    | none =>
      rw [fieldSlicesFrom, he, List.nil_append]
      exact ih (k + 1) s
    | some xs =>
      rw [fieldSlicesFrom, he, List.singleton_append, slSegs_cons, slPoss_cons]
      rw [subseqWhere_append _ _ (by rw [List.length_replicate, List.length_range]) s]
      by_cases hk : k = s
      · subst hk
        have h1 : subseqWhere (List.replicate xs.length k) (List.range xs.length) k =
            List.range xs.length := by
          have h0 := subseqWhere_replicate_self (List.range xs.length) k
          rw [List.length_range] at h0
          exact h0
        have h2 : subseqWhere (slSegs (fieldSlicesFrom (k + 1) f rest))
            (slPoss (fieldSlicesFrom (k + 1) f rest)) k = [] := by
          apply subseqWhere_all_ne
          intro a ha
          rcases mem_slSegs _ a ha with ⟨q, hq, he2⟩
          have hb := fieldSlicesFrom_id_bounds f rest (k + 1) q hq
          omega
        rw [h1, h2, List.append_nil]
        exact ⟨xs.length, rfl⟩
      · rw [subseqWhere_replicate_ne hk, List.nil_append]
        exact ih (k + 1) s

/-! ## Padding -/

theorem getD_replicate (n : Nat) (a : α) (i : Nat) (d : α) :
    (List.replicate n a).getD i d = if i < n then a else d := by
  induction n generalizing i with
  | zero => simp
  | succ m ih =>
    cases i with
    | zero =>
      rw [List.replicate_succ]
      simp
    | succ j =>
      rw [List.replicate_succ, List.getD_cons_succ, ih]
      by_cases hj : j < m
      · rw [if_pos hj, if_pos (by omega)]
      · rw [if_neg hj, if_neg (by omega)]

theorem slSegs_pos (f : String) (l : List PEx) :
    ∀ a ∈ slSegs (fieldSlicesFrom 1 f l), 1 ≤ a := by
  intro a ha
  rcases mem_slSegs _ a ha with ⟨q, hq, he⟩
  have := fieldSlicesFrom_id_bounds f l 1 q hq
  omega

/-- At any padding index of an emitted field (segment id 0), the value
and the position are both 0. -/
theorem padTo_padding (f : String) (l : List PEx) (cap : Nat) (i : Nat)
    (hseg : (padTo cap 0 (slSegs (fieldSlicesFrom 1 f l))).getD i 0 = 0) :
    (padTo cap (0 : Token) (slVals (fieldSlicesFrom 1 f l))).getD i 0 = 0 ∧
    (padTo cap 0 (slPoss (fieldSlicesFrom 1 f l))).getD i 0 = 0 := by
  by_cases hi : i < (slSegs (fieldSlicesFrom 1 f l)).length
  · exfalso
    unfold padTo at hseg
    rw [List.getD_append _ _ _ _ hi] at hseg
    have hmem : (slSegs (fieldSlicesFrom 1 f l)).getD i 0 ∈
        slSegs (fieldSlicesFrom 1 f l) := by
      rw [List.getD_eq_getElem _ _ hi]
      exact List.getElem_mem hi
    have := slSegs_pos f l _ hmem
    omega
  · have hlen : (slVals (fieldSlicesFrom 1 f l)).length ≤ i := by
      rw [← slSegs_length]
      omega
    constructor
    · unfold padTo
      rw [List.getD_append_right _ _ _ _ hlen, getD_replicate]
      split <;> rfl
    · unfold padTo
      rw [List.getD_append_right _ _ _ _ (by rw [slPoss_length]; exact hlen), getD_replicate]
      split <;> rfl

/-! ## Contiguous appearance of one example inside an emitted row -/

/-- The tokens `toks` appear in the packed field `pf` contiguously, and
segment id `s` is carried by exactly those positions. -/
def SegAppears (pf : PackedField) (s : Nat) (toks : List Token) : Prop :=
  ∃ u v u2 v2, pf.values = u ++ (toks ++ v) ∧
    pf.segs = u2 ++ (List.replicate toks.length s ++ v2) ∧
    u2.length = u.length ∧ s ∉ u2 ∧ s ∉ v2

theorem slVals_append (a b : List (Nat × List Token)) :
    slVals (a ++ b) = slVals a ++ slVals b := by
  unfold slVals
  rw [List.map_append, List.flatten_append]

theorem slSegs_append (a b : List (Nat × List Token)) :
    slSegs (a ++ b) = slSegs a ++ slSegs b := by
  unfold slSegs
  rw [List.map_append, List.flatten_append]

theorem fieldSlicesFrom_decomp (f : String) : ∀ (l : List PEx) (k0 j : Nat)
    (hj : j < l.length) (toks : List Token),
    ((l.get ⟨j, hj⟩).lookup f = some toks) →
    ∃ sl1 sl2, fieldSlicesFrom k0 f l = sl1 ++ (k0 + j, toks) :: sl2 ∧
      (∀ q ∈ sl1, q.1 < k0 + j) ∧ (∀ q ∈ sl2, k0 + j < q.1) := by
  intro l
  induction l with
  | nil =>
    intro k0 j hj
    exact absurd hj (by simp)
  | cons e rest ih =>
    intro k0 j hj toks he
    cases j with
    | zero =>
      have he2 : e.lookup f = some toks := he
      rw [fieldSlicesFrom, he2]
      refine ⟨[], fieldSlicesFrom (k0 + 1) f rest, ?_, ?_, ?_⟩
      · rw [List.nil_append, List.singleton_append]
        simp
      · intro q hq
        simp at hq
      · intro q hq
        have := fieldSlicesFrom_id_bounds f rest (k0 + 1) q hq
        omega
    | succ j0 =>
      have hj0 : j0 < rest.length := by
        rw [List.length_cons] at hj
        omega
      have he2 : (rest.get ⟨j0, hj0⟩).lookup f = some toks := he
      rcases ih (k0 + 1) j0 hj0 toks he2 with ⟨sl1, sl2, hdec, hlt, hgt⟩
      have hidx : k0 + (j0 + 1) = k0 + 1 + j0 := by omega
      cases hef : e.lookup f with
      | none =>
        rw [fieldSlicesFrom, hef, List.nil_append]
        refine ⟨sl1, sl2, ?_, ?_, ?_⟩
        · rw [hidx]
          exact hdec
        · intro q hq
          have := hlt q hq
          omega
        · intro q hq
          have := hgt q hq
          omega
      | some xs =>
        rw [fieldSlicesFrom, hef, List.singleton_append]
        refine ⟨(k0, xs) :: sl1, sl2, ?_, ?_, ?_⟩
        · rw [List.cons_append, hdec, hidx]
        · intro q hq
          rcases List.mem_cons.mp hq with h1 | h2
          · rw [h1]
            simp
          · have := hlt q h2
            omega
        · intro q hq
          have := hgt q hq
          omega

/-- The row emitted for a well-formed group carries the tokens of the
`k`-th example of the group (for each of its fields) contiguously, under
the single fresh segment id `k + 1`. -/
theorem emitG_SegAppears (spec : FieldSpec) (g : List (Nat × PEx)) (hgood : GoodG spec g)
    (k : Nat) (hk : k < g.length) (f : String) (cap : Nat)
    (hcap : spec.lookup f = some cap) (toks : List Token)
    (htoks : ((g.get ⟨k, hk⟩).2).lookup f = some toks) :
    ∃ pf, (emitG spec g).lookup f = some pf ∧ SegAppears pf (k + 1) toks := by
  rcases emitG_field spec g hgood f cap hcap with ⟨hlook, hle⟩
  refine ⟨_, hlook, ?_⟩
  have hk2 : k < (g.map (fun q => q.2)).length := by
    rw [List.length_map]
    exact hk
  have hget : (g.map (fun q => q.2)).get ⟨k, hk2⟩ = (g.get ⟨k, hk⟩).2 :=
    get_map_at (fun q => q.2) g k hk2 hk
  have htoks2 : List.lookup f ((List.map (fun q : Nat × PEx => q.2) g).get ⟨k, hk2⟩) =
      some toks := by
    rw [hget]
    exact htoks
  rcases fieldSlicesFrom_decomp f (g.map (fun q => q.2)) 1 k hk2 toks htoks2 with
    ⟨sl1, sl2, hdec, hlt, hgt⟩
  have hs : 1 + k = k + 1 := Nat.add_comm 1 k
  rw [hs] at hdec hlt hgt
  refine ⟨slVals sl1,
    slVals sl2 ++ List.replicate
      (cap - (slVals (fieldSlicesFrom 1 f (g.map (fun q => q.2)))).length) 0,
    slSegs sl1,
    slSegs sl2 ++ List.replicate
      (cap - (slSegs (fieldSlicesFrom 1 f (g.map (fun q => q.2)))).length) 0,
    ?_, ?_, ?_, ?_, ?_⟩
  · show padTo cap 0 (slVals (fieldSlicesFrom 1 f (g.map (fun q => q.2)))) = _
    unfold padTo
    rw [hdec]
    have hv : slVals (sl1 ++ (k + 1, toks) :: sl2) = slVals sl1 ++ (toks ++ slVals sl2) := by
      have h1 : sl1 ++ (k + 1, toks) :: sl2 = sl1 ++ ([(k + 1, toks)] ++ sl2) := by
        rw [List.singleton_append]
      rw [h1, slVals_append, slVals_append]
      have h2 : slVals [(k + 1, toks)] = toks := by
        unfold slVals
        simp
      rw [h2]
    rw [hv]
    simp [List.append_assoc]
  · show padTo cap 0 (slSegs (fieldSlicesFrom 1 f (g.map (fun q => q.2)))) = _
    unfold padTo
    rw [hdec]
    have hv : slSegs (sl1 ++ (k + 1, toks) :: sl2) =
        slSegs sl1 ++ (List.replicate toks.length (k + 1) ++ slSegs sl2) := by
      have h1 : sl1 ++ (k + 1, toks) :: sl2 = sl1 ++ ([(k + 1, toks)] ++ sl2) := by
        rw [List.singleton_append]
      rw [h1, slSegs_append, slSegs_append]
      have h2 : slSegs [(k + 1, toks)] = List.replicate toks.length (k + 1) := by
        unfold slSegs
        simp
      rw [h2]
    rw [hv]
    simp [List.append_assoc]
  · exact slSegs_length sl1
  · intro hmem
    rcases mem_slSegs sl1 _ hmem with ⟨q, hq, he2⟩
    have := hlt q hq
    omega
  · intro hmem
    rcases List.mem_append.mp hmem with h1 | h2
    · rcases mem_slSegs sl2 _ h1 with ⟨q, hq, he2⟩
      have := hgt q hq
      omega
    · have := List.eq_of_mem_replicate h2
      omega

/-! ## The placed entries: bounds, uniqueness, membership -/

theorem validEntriesFrom_bounds (spec : FieldSpec) : ∀ (exs : List Example) (n0 : Nat)
    (q : Nat × PEx), q ∈ validEntriesFrom spec n0 exs → n0 ≤ q.1 ∧ q.1 < n0 + exs.length := by
  intro exs
  induction exs with
  | nil =>
    intro n0 q hq
    rw [validEntriesFrom] at hq
    simp at hq
  | cons ex rest ih =>
    intro n0 q hq
    rw [validEntriesFrom] at hq
    rcases List.mem_append.mp hq with h1 | h2
    · by_cases hemp : allEmpty (preprocess spec ex) = true
      · rw [if_pos hemp] at h1
        simp at h1
      · rw [if_neg hemp] at h1
        have hqe : q = (n0, preprocess spec ex) := by simpa using h1
        rw [hqe, List.length_cons]
        simp
    · have := ih (n0 + 1) q h2
      rw [List.length_cons]
      omega

theorem validEntriesFrom_fst_nodup (spec : FieldSpec) : ∀ (exs : List Example) (n0 : Nat),
    ((validEntriesFrom spec n0 exs).map Prod.fst).Nodup := by
  intro exs
  induction exs with
  | nil =>
    intro n0
    rw [validEntriesFrom]
    exact List.nodup_nil
  | cons ex rest ih =>
    intro n0
    rw [validEntriesFrom]
    by_cases hemp : allEmpty (preprocess spec ex) = true
    · rw [if_pos hemp, List.nil_append]
      exact ih (n0 + 1)
    · rw [if_neg hemp, List.singleton_append, List.map_cons, List.nodup_cons]
      constructor
      · intro hmem
        rcases List.mem_map.mp hmem with ⟨q, hq, he⟩
        have := validEntriesFrom_bounds spec rest (n0 + 1) q hq
        omega
      · exact ih (n0 + 1)

theorem mem_validEntriesFrom (spec : FieldSpec) : ∀ (exs : List Example) (n0 j : Nat)
    (hj : j < exs.length), allEmpty (preprocess spec (exs.get ⟨j, hj⟩)) = false →
    (n0 + j, preprocess spec (exs.get ⟨j, hj⟩)) ∈ validEntriesFrom spec n0 exs := by
  intro exs
  induction exs with
  | nil =>
    intro n0 j hj
    exact absurd hj (by simp)
  | cons ex rest ih =>
    intro n0 j hj hemp
    cases j with
    | zero =>
      rw [validEntriesFrom]
      apply List.mem_append.mpr
      left
      have hget : (ex :: rest).get ⟨0, hj⟩ = ex := rfl
      rw [hget] at hemp
      rw [if_neg (by rw [hemp]; exact Bool.false_ne_true)]
      simp
    | succ j0 =>
      have hj0 : j0 < rest.length := by
        rw [List.length_cons] at hj
        omega
      have hget : (ex :: rest).get ⟨j0 + 1, hj⟩ = rest.get ⟨j0, hj0⟩ := rfl
      rw [hget] at hemp ⊢
      rw [validEntriesFrom]
      apply List.mem_append.mpr
      right
      have hidx : n0 + (j0 + 1) = (n0 + 1) + j0 := by omega
      rw [hidx]
      exact ih (n0 + 1) j0 hj0 hemp

/-! ## Concrete sample data (the documented example of `pack_dataset`) -/

def exampleSpec : FieldSpec := [("inputs", 10), ("targets", 10)]

/-- First input example of the claims' end-to-end test (no input padding). -/
def exampleA : Example := [("inputs", [8, 7, 1]), ("targets", [4, 1])]

/-- First input example as written in the source docstring (with trailing
zero padding). -/
def exampleA0 : Example := [("inputs", [8, 7, 1, 0]), ("targets", [4, 1, 0])]

def exampleB : Example := [("inputs", [2, 3, 4, 1]), ("targets", [5, 6, 1])]

/-- The packed row the source docstring documents for the two examples. -/
def exampleRow : PackedRow :=
  [("inputs", ⟨[8, 7, 1, 2, 3, 4, 1, 0, 0, 0],
               [1, 1, 1, 2, 2, 2, 2, 0, 0, 0],
               [0, 1, 2, 0, 1, 2, 3, 0, 0, 0]⟩),
   ("targets", ⟨[4, 1, 5, 6, 1, 0, 0, 0, 0, 0],
                [1, 1, 2, 2, 2, 0, 0, 0, 0, 0],
                [0, 1, 0, 1, 2, 0, 0, 0, 0, 0]⟩)]

/-! ## The claims -/

/-- C1: End-to-end example. With FieldSpec `{inputs: 10, targets: 10}`,
submitting `{"inputs":[8,7,1],"targets":[4,1]}` and then
`{"inputs":[2,3,4,1],"targets":[5,6,1]}` followed by `drain()` yields
exactly one PackedRow, with inputs `[8,7,1,2,3,4,1,0,0,0]`, segment ids
`[1,1,1,2,2,2,2,0,0,0]`, positions `[0,1,2,0,1,2,3,0,0,0]`, and targets
`[4,1,5,6,1,0,0,0,0,0]` / `[1,1,2,2,2,0,0,0,0,0]` /
`[0,1,0,1,2,0,0,0,0,0]` (checked at the pool sizes 1 and 4). -/
theorem C1_end_to_end_example :
    packAll exampleSpec 1 [exampleA, exampleB] = .ok [exampleRow] ∧
    packAll exampleSpec 4 [exampleA, exampleB] = .ok [exampleRow] :=
  ⟨rfl, rfl⟩

/-- C9: Trailing zero tokens of an input example's fields are stripped
before packing, not packed under the example's segment id: the
docstring's first example `{"inputs":[8,7,1,0],"targets":[4,1,0]}`
contributes only three inputs tokens (segment ids `[1,1,1]`) and two
targets tokens, producing exactly the documented packed row. -/
theorem C9_input_padding_stripped :
    preprocess exampleSpec exampleA0 =
      [("inputs", [8, 7, 1]), ("targets", [4, 1])] ∧
    packAll exampleSpec 1 [exampleA0, exampleB] = .ok [exampleRow] :=
  ⟨rfl, rfl⟩

/-- C7 counterexample: the claim says a field longer than its capacity is
truncated to its *first capacity-many tokens*; for the field
`[1, 2, 3, 0, 0]` with capacity 4 those would be `[1, 2, 3, 0]` (four
tokens, emitted under segment ids `[1,1,1,1]`), but the code strips the
trailing zero padding first, so only `[1, 2, 3]` is placed and the
emitted segment ids are `[1, 1, 1, 0]`. -/
theorem C7_counterexample :
    preprocess [("f", 4)] [("f", [1, 2, 3, 0, 0])] = [("f", [1, 2, 3])] ∧
    preprocess [("f", 4)] [("f", [1, 2, 3, 0, 0])] ≠
      [("f", List.take 4 [1, 2, 3, 0, 0])] ∧
    packAll [("f", 4)] 1 [[("f", [1, 2, 3, 0, 0])]] =
      .ok [[("f", ⟨[1, 2, 3, 0], [1, 1, 1, 0], [0, 1, 2, 0]⟩)]] := by
  refine ⟨rfl, ?_, rfl⟩
  intro h
  simp [preprocess, preprocessField, stripTrailingZeros, List.lookup] at h

/-- C7 (amended): for every submitted example, each declared field is
reduced, before placement, to the first `FieldSpec[f]` tokens of its
trailing-zero-stripped sequence; the processed example always fits an
empty bin, so placement never fails because of a field's untruncated
length. -/
theorem C7_truncation_amended (spec : FieldSpec) (ex : Example) (f : String)
    (xs : List Token) (cap : Nat) (hx : ex.lookup f = some xs)
    (hcap : spec.lookup f = some cap) :
    (preprocess spec ex).lookup f = some ((stripTrailingZeros xs).take cap) ∧
    fitsB spec (emptyBin spec) (preprocess spec ex) = true := by
  constructor
  · rw [preprocess_lookup spec ex f cap hcap, hx]
    rfl
  · exact fitsB_emptyBin spec ex

theorem C7_truncation_amended_witness :
    ([("f", [1, 2, 3, 0, 0])] : Example).lookup "f" = some [1, 2, 3, 0, 0] ∧
    ([("f", 4)] : FieldSpec).lookup "f" = some 4 ∧
    ((preprocess [("f", 4)] [("f", [1, 2, 3, 0, 0])]).lookup "f" =
        some ((stripTrailingZeros [1, 2, 3, 0, 0]).take 4) ∧
      fitsB [("f", 4)] (emptyBin [("f", 4)]) (preprocess [("f", 4)] [("f", [1, 2, 3, 0, 0])]) = true) :=
  ⟨rfl, rfl, C7_truncation_amended [("f", 4)] [("f", [1, 2, 3, 0, 0])] "f" [1, 2, 3, 0, 0] 4 rfl rfl⟩

/-- C8: `submit` fails with `FieldNotDeclared` whenever the example
contains a field absent from the FieldSpec; the error names an
undeclared field of the example and is surfaced to the caller (the
example is not silently dropped). -/
theorem C8_field_not_declared (p : Packer) (ex : Example) (f0 : String)
    (xs0 : List Token) (hmem : (f0, xs0) ∈ ex) (hundecl : p.spec.lookup f0 = none) :
    ∃ f, submit p ex = .error (.FieldNotDeclared f) ∧
      (∃ xs, (f, xs) ∈ ex) ∧ p.spec.lookup f = none :=
  submit_eq_of_undeclared ⟨(f0, xs0), hmem, hundecl⟩

theorem C8_field_not_declared_witness :
    (("bad", ([5] : List Token)) ∈ ([("bad", [5])] : Example)) ∧
    (exampleSpec.lookup "bad" = none) ∧
    ∃ f, submit ⟨exampleSpec, 1, []⟩ [("bad", [5])] = .error (.FieldNotDeclared f) ∧
      (∃ xs, (f, xs) ∈ ([("bad", [5])] : Example)) ∧ exampleSpec.lookup f = none :=
  ⟨List.mem_cons_self _ _, rfl,
    C8_field_not_declared ⟨exampleSpec, 1, []⟩ [("bad", [5])] "bad" [5]
      (List.mem_cons_self _ _) rfl⟩

/-- C2: placement policy of `submit`. For a reachable packer state (pool
within bound, positive pool size) and a declared, nonempty example: the
open bins are scanned oldest first and the example is placed in the first
bin it fits in; if none fits and the pool has room a fresh bin is
appended; if none fits and the pool is full, the oldest bin is emitted as
a completed (padded) PackedRow and the example starts a fresh bin. -/
theorem C2_placement_policy (p : Packer) (ex : Example)
    (hdecl : ∀ r ∈ ex, (p.spec.lookup r.1).isSome = true)
    (hne : allEmpty (preprocess p.spec ex) = false)
    (hpool : p.bins.length ≤ p.pool_size) (hps : 1 ≤ p.pool_size) :
    (∃ i, ∃ hlt : i < p.bins.length,
        fitsB p.spec (p.bins.get ⟨i, hlt⟩) (preprocess p.spec ex) = true ∧
        (∀ j (hj : j < p.bins.length), j < i →
          fitsB p.spec (p.bins.get ⟨j, hj⟩) (preprocess p.spec ex) = false) ∧
        submit p ex = .ok (⟨p.spec, p.pool_size,
          updateAt p.bins i (fun b => addExample b (preprocess p.spec ex))⟩, [])) ∨
    ((∀ b ∈ p.bins, fitsB p.spec b (preprocess p.spec ex) = false) ∧
      p.bins.length < p.pool_size ∧
      submit p ex = .ok (⟨p.spec, p.pool_size,
        p.bins ++ [addExample (emptyBin p.spec) (preprocess p.spec ex)]⟩, [])) ∨
    ((∀ b ∈ p.bins, fitsB p.spec b (preprocess p.spec ex) = false) ∧
      p.bins.length = p.pool_size ∧
      ∃ b rest, p.bins = b :: rest ∧
        submit p ex = .ok (⟨p.spec, p.pool_size,
          rest ++ [addExample (emptyBin p.spec) (preprocess p.spec ex)]⟩,
          [emitBin p.spec b])) := by
  rcases submit_cases hdecl hne with
    ⟨i, hlt, hfit, hmin, hsub⟩ | ⟨hnofit, hroom, hsub⟩ | ⟨hnofit, hfull, hrest⟩
  · exact Or.inl ⟨i, hlt, hfit, hmin, hsub⟩
  · exact Or.inr (Or.inl ⟨hnofit, hroom, hsub⟩)
  · refine Or.inr (Or.inr ⟨hnofit, by omega, ?_⟩)
    rcases hrest with ⟨hnil, _⟩ | ⟨b, rest, hbins, hsub⟩
    · exfalso
      rw [hnil] at hfull
      simp at hfull
      omega
    · exact ⟨b, rest, hbins, hsub⟩

theorem C2_placement_policy_witness :
    ((∀ r ∈ exampleA, ((⟨exampleSpec, 1, []⟩ : Packer).spec.lookup r.1).isSome = true) ∧
     allEmpty (preprocess (⟨exampleSpec, 1, []⟩ : Packer).spec exampleA) = false) ∧
    ((∃ i, ∃ hlt : i < (⟨exampleSpec, 1, []⟩ : Packer).bins.length,
        fitsB exampleSpec ((⟨exampleSpec, 1, []⟩ : Packer).bins.get ⟨i, hlt⟩)
          (preprocess exampleSpec exampleA) = true ∧
        (∀ j (hj : j < (⟨exampleSpec, 1, []⟩ : Packer).bins.length), j < i →
          fitsB exampleSpec ((⟨exampleSpec, 1, []⟩ : Packer).bins.get ⟨j, hj⟩)
            (preprocess exampleSpec exampleA) = false) ∧
        submit ⟨exampleSpec, 1, []⟩ exampleA = .ok (⟨exampleSpec, 1,
          updateAt [] i (fun b => addExample b (preprocess exampleSpec exampleA))⟩, [])) ∨
     ((∀ b ∈ (⟨exampleSpec, 1, []⟩ : Packer).bins,
        fitsB exampleSpec b (preprocess exampleSpec exampleA) = false) ∧
      (0 : Nat) < 1 ∧
      submit ⟨exampleSpec, 1, []⟩ exampleA = .ok (⟨exampleSpec, 1,
        [] ++ [addExample (emptyBin exampleSpec) (preprocess exampleSpec exampleA)]⟩, [])) ∨
     ((∀ b ∈ (⟨exampleSpec, 1, []⟩ : Packer).bins,
        fitsB exampleSpec b (preprocess exampleSpec exampleA) = false) ∧
      (0 : Nat) = 1 ∧
      ∃ b rest, (⟨exampleSpec, 1, []⟩ : Packer).bins = b :: rest ∧
        submit ⟨exampleSpec, 1, []⟩ exampleA = .ok (⟨exampleSpec, 1,
          rest ++ [addExample (emptyBin exampleSpec) (preprocess exampleSpec exampleA)]⟩,
          [emitBin exampleSpec b]))) :=
  ⟨⟨by decide, by decide⟩,
    C2_placement_policy ⟨exampleSpec, 1, []⟩ exampleA (by decide) (by decide)
      (by decide) (by decide)⟩

/-- C4: capacity invariant. For every emitted PackedRow of a successful
run and every field of the FieldSpec, the values, segment-id and position
sequences all have length exactly the field's declared capacity. -/
theorem C4_capacity_invariant (spec : FieldSpec) (ps : Nat) (exs : List Example)
    (rows : List PackedRow) (hwf : (spec.map Prod.fst).Nodup)
    (hdecl : ∀ ex ∈ exs, ∀ r ∈ ex, (spec.lookup r.1).isSome = true)
    (h : packAll spec ps exs = .ok rows) :
    ∀ row ∈ rows, ∀ fc ∈ spec, ∃ pf : PackedField,
      row.lookup fc.1 = some pf ∧
      pf.values.length = fc.2 ∧ pf.segs.length = fc.2 ∧ pf.poss.length = fc.2 := by
  intro row hrow fc hfc
  rcases packAll_groups spec ps exs hdecl h with ⟨egs, hrows, hgood, _⟩
  rw [hrows] at hrow
  rcases List.mem_map.mp hrow with ⟨g, hg, hge⟩
  rcases fc with ⟨f, cap⟩
  have hcap : spec.lookup f = some cap := lookup_of_mem_nodup hwf hfc
  rcases emitG_field spec g (hgood g hg) f cap hcap with ⟨hlook, hle⟩
  refine ⟨_, by rw [← hge]; exact hlook, ?_, ?_, ?_⟩
  · exact padTo_length _ hle
  · exact padTo_length _ (by rw [slSegs_length]; exact hle)
  · exact padTo_length _ (by rw [slPoss_length]; exact hle)

theorem C4_capacity_invariant_witness :
    ∃ pf : PackedField, exampleRow.lookup "inputs" = some pf ∧
      pf.values.length = 10 ∧ pf.segs.length = 10 ∧ pf.poss.length = 10 :=
  C4_capacity_invariant exampleSpec 1 [exampleA, exampleB] [exampleRow]
    (by decide) (by decide) rfl exampleRow (List.mem_cons_self _ _)
    ("inputs", 10) (List.mem_cons_self _ _)

/-- C5: position correctness. Within any emitted PackedRow and any field,
for every nonzero segment id `s`, the subsequence of positions at the
indices where the segment ids equal `s` is exactly `0, 1, ..., m-1` for
some `m`. -/
theorem C5_position_correctness (spec : FieldSpec) (ps : Nat) (exs : List Example)
    (rows : List PackedRow) (hwf : (spec.map Prod.fst).Nodup)
    (hdecl : ∀ ex ∈ exs, ∀ r ∈ ex, (spec.lookup r.1).isSome = true)
    (h : packAll spec ps exs = .ok rows) :
    ∀ row ∈ rows, ∀ fc ∈ spec, ∃ pf : PackedField,
      row.lookup fc.1 = some pf ∧
      ∀ s : Nat, s ≠ 0 → ∃ m, subseqWhere pf.segs pf.poss s = List.range m := by
  intro row hrow fc hfc
  rcases packAll_groups spec ps exs hdecl h with ⟨egs, hrows, hgood, _⟩
  rw [hrows] at hrow
  rcases List.mem_map.mp hrow with ⟨g, hg, hge⟩
  rcases fc with ⟨f, cap⟩
  have hcap : spec.lookup f = some cap := lookup_of_mem_nodup hwf hfc
  rcases emitG_field spec g (hgood g hg) f cap hcap with ⟨hlook, hle⟩
  refine ⟨_, by rw [← hge]; exact hlook, ?_⟩
  intro s hs
  show ∃ m, subseqWhere (padTo cap 0 (slSegs (fieldSlicesFrom 1 f (g.map (fun q => q.2)))))
    (padTo cap 0 (slPoss (fieldSlicesFrom 1 f (g.map (fun q => q.2))))) s = List.range m
  unfold padTo
  rw [subseqWhere_append _ _ (by rw [slSegs_length, slPoss_length]) s]
  rcases subseq_slices_range f (g.map (fun q => q.2)) 1 s with ⟨m, hm⟩
  rw [hm, subseqWhere_replicate_ne (fun h0 => hs h0.symm), List.append_nil]
  exact ⟨m, rfl⟩

theorem C5_position_correctness_witness :
    ∃ pf : PackedField, exampleRow.lookup "inputs" = some pf ∧
      ∃ m, subseqWhere pf.segs pf.poss 2 = List.range m := by
  rcases C5_position_correctness exampleSpec 1 [exampleA, exampleB] [exampleRow]
      (by decide) (by decide) rfl exampleRow (List.mem_cons_self _ _)
      ("inputs", 10) (List.mem_cons_self _ _) with ⟨pf, h1, h2⟩
  exact ⟨pf, h1, h2 2 (by decide)⟩

/-- C6: padding correctness. In every emitted PackedRow and every field,
wherever the segment id is 0 the value and the position there are 0. -/
theorem C6_padding_correctness (spec : FieldSpec) (ps : Nat) (exs : List Example)
    (rows : List PackedRow) (hwf : (spec.map Prod.fst).Nodup)
    (hdecl : ∀ ex ∈ exs, ∀ r ∈ ex, (spec.lookup r.1).isSome = true)
    (h : packAll spec ps exs = .ok rows) :
    ∀ row ∈ rows, ∀ fc ∈ spec, ∃ pf : PackedField,
      row.lookup fc.1 = some pf ∧
      ∀ i : Nat, pf.segs.getD i 0 = 0 →
        pf.values.getD i 0 = 0 ∧ pf.poss.getD i 0 = 0 := by
  intro row hrow fc hfc
  rcases packAll_groups spec ps exs hdecl h with ⟨egs, hrows, hgood, _⟩
  rw [hrows] at hrow
  rcases List.mem_map.mp hrow with ⟨g, hg, hge⟩
  rcases fc with ⟨f, cap⟩
  have hcap : spec.lookup f = some cap := lookup_of_mem_nodup hwf hfc
  rcases emitG_field spec g (hgood g hg) f cap hcap with ⟨hlook, _⟩
  refine ⟨_, by rw [← hge]; exact hlook, ?_⟩
  intro i hseg
  exact padTo_padding f (g.map (fun q => q.2)) cap i hseg

theorem C6_padding_correctness_witness :
    ∃ pf : PackedField, exampleRow.lookup "inputs" = some pf ∧
      (pf.values.getD 8 0 = 0 ∧ pf.poss.getD 8 0 = 0) := by
  rcases C6_padding_correctness exampleSpec 1 [exampleA, exampleB] [exampleRow]
      (by decide) (by decide) rfl exampleRow (List.mem_cons_self _ _)
      ("inputs", 10) (List.mem_cons_self _ _) with ⟨pf, h1, h2⟩
  have hpf : some pf = some (⟨[8, 7, 1, 2, 3, 4, 1, 0, 0, 0],
      [1, 1, 1, 2, 2, 2, 2, 0, 0, 0], [0, 1, 2, 0, 1, 2, 3, 0, 0, 0]⟩ : PackedField) := by
    rw [← h1]
    rfl
  injection hpf with hpf2
  subst hpf2
  exact ⟨_, h1, h2 8 (by decide)⟩

/-- C3: no splitting. The rows of a successful run are the rows of a list
of groups (one group of placed entries per row): each group's examples
were added only after fitting in every field (`fitsAll`); every submitted
example whose processed form is nonempty occurs at exactly one position
of exactly one group (the flattened entry indices are distinct); and all
tokens of every field of that example appear in that group's row
contiguously, under the single segment id given by its rank in the group
— so no example is ever split across rows or segments. -/
theorem C3_no_splitting (spec : FieldSpec) (ps : Nat) (exs : List Example)
    (rows : List PackedRow)
    (hdecl : ∀ ex ∈ exs, ∀ r ∈ ex, (spec.lookup r.1).isSome = true)
    (h : packAll spec ps exs = .ok rows) :
    ∃ egs : List (List (Nat × PEx)),
      rows = egs.map (emitG spec) ∧
      (∀ g ∈ egs, fitsAll spec (emptyBin spec) (g.map (fun q => q.2)) = true) ∧
      ((egs.flatten).map Prod.fst).Nodup ∧
      ∀ j (hj : j < exs.length),
        allEmpty (preprocess spec (exs.get ⟨j, hj⟩)) = false →
        ∃ i k, ∃ hi : i < egs.length, ∃ hk : k < (egs.get ⟨i, hi⟩).length,
          (egs.get ⟨i, hi⟩).get ⟨k, hk⟩ = (j, preprocess spec (exs.get ⟨j, hj⟩)) ∧
          ∀ f toks, (preprocess spec (exs.get ⟨j, hj⟩)).lookup f = some toks →
            ∃ pf, (emitG spec (egs.get ⟨i, hi⟩)).lookup f = some pf ∧
              SegAppears pf (k + 1) toks := by
  rcases packAll_groups spec ps exs hdecl h with ⟨egs, hrows, hgood, hperm⟩
  refine ⟨egs, hrows, fun g hg => (hgood g hg).1, ?_, ?_⟩
  · have hnodup := validEntriesFrom_fst_nodup spec exs 0
    exact ((hperm.map Prod.fst).nodup_iff).mpr hnodup
  · intro j hj hne
    have hmem : (j, preprocess spec (exs.get ⟨j, hj⟩)) ∈ validEntriesFrom spec 0 exs := by
      have := mem_validEntriesFrom spec exs 0 j hj hne
      rw [Nat.zero_add] at this
      exact this
    have hmem2 : (j, preprocess spec (exs.get ⟨j, hj⟩)) ∈ egs.flatten :=
      (hperm.mem_iff).mpr hmem
    rcases List.mem_flatten.mp hmem2 with ⟨g, hgmem, hentry⟩
    rcases List.mem_iff_get.mp hgmem with ⟨⟨i, hi⟩, hgi⟩
    subst hgi
    rcases List.mem_iff_get.mp hentry with ⟨⟨k, hk⟩, hki⟩
    refine ⟨i, k, hi, hk, hki, ?_⟩
    intro f toks htoks
    have hentry2 : ((egs.get ⟨i, hi⟩).get ⟨k, hk⟩).2.lookup f = some toks := by
      rw [hki]
      exact htoks
    have hdecl2 : ∃ cap, spec.lookup f = some cap := by
      have hmem3 := lookup_mem htoks
      rcases mem_preprocess hmem3 with ⟨cap, xs, hcap, _, _⟩
      exact ⟨cap, hcap⟩
    rcases hdecl2 with ⟨cap, hcap⟩
    have hgoodi : GoodG spec (egs.get ⟨i, hi⟩) := hgood _ (List.get_mem egs i hi)
    exact emitG_SegAppears spec (egs.get ⟨i, hi⟩) hgoodi k hk f cap hcap toks hentry2

theorem C3_no_splitting_witness :
    ∃ egs : List (List (Nat × PEx)),
      [exampleRow] = egs.map (emitG exampleSpec) ∧
      (∀ g ∈ egs, fitsAll exampleSpec (emptyBin exampleSpec)
        (g.map (fun q => q.2)) = true) ∧
      ((egs.flatten).map Prod.fst).Nodup ∧
      ∀ j (hj : j < ([exampleA, exampleB] : List Example).length),
        allEmpty (preprocess exampleSpec
          (([exampleA, exampleB] : List Example).get ⟨j, hj⟩)) = false →
        ∃ i k, ∃ hi : i < egs.length, ∃ hk : k < (egs.get ⟨i, hi⟩).length,
          (egs.get ⟨i, hi⟩).get ⟨k, hk⟩ =
            (j, preprocess exampleSpec (([exampleA, exampleB] : List Example).get ⟨j, hj⟩)) ∧
          ∀ f toks, (preprocess exampleSpec
              (([exampleA, exampleB] : List Example).get ⟨j, hj⟩)).lookup f = some toks →
            ∃ pf, (emitG exampleSpec (egs.get ⟨i, hi⟩)).lookup f = some pf ∧
              SegAppears pf (k + 1) toks :=
  C3_no_splitting exampleSpec 1 [exampleA, exampleB] [exampleRow] (by decide) rfl

/-! ## The dataset plumbing around the packing op (for C10)

`pack_dataset` adds a fake grain index key, flattens the nested example
dict, applies the packing op, unflattens, and removes the index key.  We
model nested dicts as trees and flattening at the level of key paths
(the separator-joined string key of an entry corresponds to its path;
the separator is chosen so that it occurs in no key). -/

/-- A nested example value: a leaf feature or a nested dict. -/
inductive NVal where
  | leaf (v : List Token)
  | node (entries : List (String × NVal))

/-- The grain index key added by `_add_fake_index` and removed by
`_remove_index` (`tf_grain.INDEX`); its concrete name is internal to the
grain library, any fixed name plays its role in the model. -/
def IDX : String := "_grain_index"

def segSuf : String := "_segment_ids"

def posSuf : String := "_positions"

/-- `_add_fake_index`: add the grain index key to the top level. -/
def addIndex (d : List (String × NVal)) : List (String × NVal) :=
  d ++ [(IDX, .leaf [-1])]

/-- `_flatten_dict` (flax `traverse_util.flatten_dict`), at path level. -/
def flattenE : List (String × NVal) → List (List String × List Token)
  | [] => []
  | (k, .leaf v) :: rest => ([k], v) :: flattenE rest
  | (k, .node sub) :: rest =>
    (flattenE sub).map (fun q => (k :: q.1, q.2)) ++ flattenE rest

/-- Append `suf` to the last component of a path: the packing op works on
separator-joined keys, so a key suffix lands on the last component. -/
def sufLast (suf : String) : List String → List String
  | [] => []
  | k :: rest => if rest.isEmpty then [k ++ suf] else k :: sufLast suf rest

/-- Modelled from the spec: the key frame of the packing op
(`TfBatchAndPack`): "For each key in the input dataset, two additional
keys are created: <key>_segment_ids ... <key>_positions" (docstring of
`pack_dataset`); the grain index meta key passes through.  The value
transforms `fv fs fp fi` are abstract parameters — only the key frame is
at issue here. -/
def packOpFlat (fv fs fp fi : List Token → List Token) :
    List (List String × List Token) → List (List String × List Token)
  | [] => []
  | (p, v) :: rest =>
    (if p = [IDX] then [(p, fi v)]
     else [(p, fv v), (sufLast segSuf p, fs v), (sufLast posSuf p, fp v)]) ++
      packOpFlat fv fs fp fi rest

def hasKey (k : String) : List (String × NVal) → Bool
  | [] => false
  | (k0, _) :: rest => k == k0 || hasKey k rest

def updateEntry (k : String) (g : NVal → NVal) :
    List (String × NVal) → List (String × NVal)
  | [] => []
  | (k0, t) :: rest =>
    if k == k0 then (k0, g t) :: rest else (k0, t) :: updateEntry k g rest

/-- One insertion step of `_unflatten_dict` (flax
`traverse_util.unflatten_dict`): walk down the path, creating nested
dicts as needed, and set the leaf. -/
def insertPath : List String → List Token → List (String × NVal) → List (String × NVal)
  | [], _, d => d
  | [k], v, d => d ++ [(k, .leaf v)]
  | k :: k2 :: rest, v, d =>
    if hasKey k d then
      updateEntry k (fun t =>
        match t with
        | .node sub => .node (insertPath (k2 :: rest) v sub)
        | .leaf w => .leaf w) d
    else d ++ [(k, .node (insertPath (k2 :: rest) v []))]

def unflattenF (flat : List (List String × List Token)) : List (String × NVal) :=
  flat.foldl (fun d q => insertPath q.1 q.2 d) []

/-- `_remove_index`: drop the grain index key from the top level. -/
def removeIndexD (d : List (String × NVal)) : List (String × NVal) :=
  d.filter (fun q => !(q.1 == IDX))

/-- The full key plumbing of `pack_dataset` around the packing op:
add index, flatten, pack, unflatten, remove index. -/
def packPipeline (fv fs fp fi : List Token → List Token)
    (d : List (String × NVal)) : List (String × NVal) :=
  removeIndexD (unflattenF (packOpFlat fv fs fp fi (flattenE (addIndex d))))

/-- The expected key frame: each leaf key `k` gains sibling keys
`k_segment_ids` and `k_positions`; nested structure is untouched. -/
def addSegPosE (fv fs fp : List Token → List Token) :
    List (String × NVal) → List (String × NVal)
  | [] => []
  | (k, .leaf v) :: rest =>
    (k, .leaf (fv v)) :: (k ++ segSuf, .leaf (fs v)) ::
      (k ++ posSuf, .leaf (fp v)) :: addSegPosE fv fs fp rest
  | (k, .node sub) :: rest =>
    (k, .node (addSegPosE fv fs fp sub)) :: addSegPosE fv fs fp rest

/-- The keys of a dict level together with the seg/pos keys its leaves
will generate. -/
def extKeys : List (String × NVal) → List String
  | [] => []
  | (k, .leaf _) :: rest => k :: (k ++ segSuf) :: (k ++ posSuf) :: extKeys rest
  | (k, .node _) :: rest => k :: extKeys rest

/-- Well-formed dict: no empty nested dict, and at every nested level the
keys (including the generated seg/pos keys) are distinct. -/
def wfE : List (String × NVal) → Bool
  | [] => true
  | (_, .leaf _) :: rest => wfE rest
  | (_, .node sub) :: rest =>
    !sub.isEmpty && decide ((extKeys sub).Nodup) && wfE sub && wfE rest

/-- No key anywhere equals the grain index key. -/
def noIdxE : List (String × NVal) → Bool
  | [] => true
  | (k, .leaf _) :: rest => !(k == IDX) && noIdxE rest
  | (k, .node sub) :: rest => !(k == IDX) && noIdxE sub && noIdxE rest

/-- Size measure for nested-dict inductions. -/
def msize : List (String × NVal) → Nat
  | [] => 0
  | (_, .leaf _) :: rest => 1 + msize rest
  | (_, .node sub) :: rest => 1 + msize sub + msize rest

/-! ## Lemmas for the key-frame theorem -/

theorem flattenE_append : ∀ a b : List (String × NVal),
    flattenE (a ++ b) = flattenE a ++ flattenE b := by
  intro a
  induction a with
  | nil =>
    intro b
    rw [List.nil_append, flattenE, List.nil_append]
  | cons e rest ih =>
    intro b
    rcases e with ⟨k, t⟩
    cases t with
    | leaf v =>
      rw [List.cons_append, flattenE, flattenE, ih, List.cons_append]
    | node sub =>
      rw [List.cons_append, flattenE, flattenE, ih, List.append_assoc]

theorem packOpFlat_append (fv fs fp fi : List Token → List Token) :
    ∀ a b, packOpFlat fv fs fp fi (a ++ b) =
      packOpFlat fv fs fp fi a ++ packOpFlat fv fs fp fi b := by
  intro a
  induction a with
  | nil => intro b; rfl
  | cons q rest ih =>
    intro b
    rcases q with ⟨p, v⟩
    rw [List.cons_append, packOpFlat, packOpFlat, ih, List.append_assoc]

theorem flattenE_paths_ne_nil : ∀ d : List (String × NVal),
    ∀ q ∈ flattenE d, q.1 ≠ [] := by
  intro d
  induction d with
  | nil => intro q hq; simp [flattenE] at hq
  | cons e rest ih =>
    intro q hq
    rcases e with ⟨k, t⟩
    cases t with
    | leaf v =>
      rw [flattenE] at hq
      rcases List.mem_cons.mp hq with h1 | h2
      · rw [h1]; simp
      · exact ih q h2
    | node sub =>
      rw [flattenE] at hq
      rcases List.mem_append.mp hq with h1 | h2
      · rcases List.mem_map.mp h1 with ⟨q0, _, hq0⟩
        rw [← hq0]
        simp
      · exact ih q h2

theorem flattenE_paths_ne_idx : ∀ d : List (String × NVal), noIdxE d = true →
    ∀ q ∈ flattenE d, q.1 ≠ [IDX] := by
  intro d
  induction d with
  | nil => intro _ q hq; simp [flattenE] at hq
  | cons e rest ih =>
    intro hidx q hq
    rcases e with ⟨k, t⟩
    cases t with
    | leaf v =>
      rw [noIdxE, Bool.and_eq_true] at hidx
      rw [flattenE] at hq
      rcases List.mem_cons.mp hq with h1 | h2
      · rw [h1]
        intro hc
        injection hc with hk
        rw [hk] at hidx
        simp at hidx
      · exact ih hidx.2 q h2
    | node sub =>
      rw [noIdxE, Bool.and_eq_true, Bool.and_eq_true] at hidx
      rw [flattenE] at hq
      rcases List.mem_append.mp hq with h1 | h2
      · rcases List.mem_map.mp h1 with ⟨q0, hq0mem, hq0⟩
        rw [← hq0]
        intro hc
        injection hc with _ htail
        exact flattenE_paths_ne_nil sub q0 hq0mem htail
      · exact ih hidx.2 q h2

theorem sufLast_ne_nil (suf : String) {p : List String} (h : p ≠ []) :
    sufLast suf p ≠ [] := by
  cases p with
  | nil => exact absurd rfl h
  | cons k rest =>
    rw [sufLast]
    split <;> simp

theorem sufLast_cons (suf k : String) {p : List String} (h : p ≠ []) :
    sufLast suf (k :: p) = k :: sufLast suf p := by
  rw [sufLast]
  rw [if_neg]
  intro hc
  exact h (List.isEmpty_iff.mp hc)

theorem packOpFlat_map_consKey (fv fs fp fi : List Token → List Token) (k : String) :
    ∀ A, (∀ q ∈ A, q.1 ≠ []) → (∀ q ∈ A, q.1 ≠ [IDX]) →
    packOpFlat fv fs fp fi (A.map (fun q => (k :: q.1, q.2))) =
      (packOpFlat fv fs fp fi A).map (fun q => (k :: q.1, q.2)) := by
  intro A
  induction A with
  | nil => intro _ _; rfl
  | cons q rest ih =>
    intro h1 h2
    rcases q with ⟨p, v⟩
    have hp : p ≠ [] := h1 (p, v) (List.mem_cons_self _ _)
    have hpidx : p ≠ [IDX] := h2 (p, v) (List.mem_cons_self _ _)
    have hcons : (k :: p) ≠ [IDX] := by
      intro hc
      injection hc with _ htail
      exact hp htail
    rw [List.map_cons, packOpFlat, packOpFlat, if_neg hcons, if_neg hpidx]
    rw [ih (fun q0 hq0 => h1 q0 (List.mem_cons_of_mem _ hq0))
      (fun q0 hq0 => h2 q0 (List.mem_cons_of_mem _ hq0))]
    rw [List.map_append]
    congr 1
    rw [List.map_cons, List.map_cons, List.map_cons, List.map_nil]
    rw [sufLast_cons segSuf k hp, sufLast_cons posSuf k hp]

theorem hasKey_append (k : String) : ∀ a b : List (String × NVal),
    hasKey k (a ++ b) = (hasKey k a || hasKey k b) := by
  intro a
  induction a with
  | nil => intro b; rfl
  | cons e rest ih =>
    intro b
    rcases e with ⟨k0, t⟩
    rw [List.cons_append, hasKey, hasKey, ih, Bool.or_assoc]

theorem updateEntry_append_last (k : String) (g : NVal → NVal) :
    ∀ (a : List (String × NVal)) (t : NVal), hasKey k a = false →
    updateEntry k g (a ++ [(k, t)]) = a ++ [(k, g t)] := by
  intro a
  induction a with
  | nil =>
    intro t _
    show updateEntry k g [(k, t)] = [(k, g t)]
    rw [updateEntry, if_pos (beq_self_eq_true k)]
  | cons e resta ih =>
    intro t hfree
    rcases e with ⟨k0, t0⟩
    rw [hasKey, Bool.or_eq_false_iff] at hfree
    rw [List.cons_append, updateEntry, if_neg (by rw [hfree.1]; exact Bool.false_ne_true)]
    rw [ih t hfree.2, List.cons_append]

theorem insert_deeper (k : String) (p : List String) (v : List Token)
    (a : List (String × NVal)) (sub : List (String × NVal)) (hp : p ≠ [])
    (hfree : hasKey k a = false) :
    insertPath (k :: p) v (a ++ [(k, NVal.node sub)]) =
      a ++ [(k, NVal.node (insertPath p v sub))] := by
  cases p with
  | nil => exact absurd rfl hp
  | cons k2 rest =>
    rw [insertPath]
    have htrue : hasKey k (a ++ [(k, NVal.node sub)]) = true := by
      rw [hasKey_append]
      have : hasKey k [(k, NVal.node sub)] = true := by
        rw [hasKey, beq_self_eq_true]
        rfl
      rw [this, Bool.or_true]
    rw [if_pos htrue, updateEntry_append_last k _ a _ hfree]

theorem insert_fresh (k : String) (p : List String) (v : List Token)
    (a : List (String × NVal)) (hp : p ≠ []) (hfree : hasKey k a = false) :
    insertPath (k :: p) v a = a ++ [(k, NVal.node (insertPath p v []))] := by
  cases p with
  | nil => exact absurd rfl hp
  | cons k2 rest =>
    rw [insertPath, if_neg (by rw [hfree]; exact Bool.false_ne_true)]

theorem fold_batch_keep (k : String) :
    ∀ (batch : List (List String × List Token)) (a : List (String × NVal))
      (sub : List (String × NVal)),
    (∀ q ∈ batch, q.1 ≠ []) → hasKey k a = false →
    List.foldl (fun d0 q => insertPath q.1 q.2 d0) (a ++ [(k, NVal.node sub)])
      (batch.map (fun q => (k :: q.1, q.2))) =
    a ++ [(k, NVal.node (List.foldl (fun d0 q => insertPath q.1 q.2 d0) sub batch))] := by
  intro batch
  induction batch with
  | nil => intro a sub _ _; rfl
  | cons q rest ih =>
    intro a sub hne hfree
    rw [List.map_cons, List.foldl_cons, List.foldl_cons]
    show List.foldl _ (insertPath (k :: q.1) q.2 (a ++ [(k, NVal.node sub)])) _ = _
    rw [insert_deeper k q.1 q.2 a sub (hne q (List.mem_cons_self _ _)) hfree]
    exact ih a _ (fun q2 h2 => hne q2 (List.mem_cons_of_mem _ h2)) hfree

theorem fold_batch_new (k : String) (batch : List (List String × List Token))
    (a : List (String × NVal)) (hne : batch ≠ []) (hp : ∀ q ∈ batch, q.1 ≠ [])
    (hfree : hasKey k a = false) :
    List.foldl (fun d0 q => insertPath q.1 q.2 d0) a
      (batch.map (fun q => (k :: q.1, q.2))) =
    a ++ [(k, NVal.node (List.foldl (fun d0 q => insertPath q.1 q.2 d0) [] batch))] := by
  cases batch with
  | nil => exact absurd rfl hne
  | cons q rest =>
    rw [List.map_cons, List.foldl_cons, List.foldl_cons]
    show List.foldl _ (insertPath (k :: q.1) q.2 a) _ = _
    rw [insert_fresh k q.1 q.2 a (hp q (List.mem_cons_self _ _)) hfree]
    exact fold_batch_keep k rest a _ (fun q2 h2 => hp q2 (List.mem_cons_of_mem _ h2)) hfree

theorem packOpFlat_ne_nil (fv fs fp fi : List Token → List Token)
    (q : List String × List Token) (rest : List (List String × List Token)) :
    packOpFlat fv fs fp fi (q :: rest) ≠ [] := by
  rcases q with ⟨p, v⟩
  rw [packOpFlat]
  split <;> simp

theorem packOpFlat_paths_ne_nil (fv fs fp fi : List Token → List Token) :
    ∀ A, (∀ q ∈ A, q.1 ≠ []) → ∀ q2 ∈ packOpFlat fv fs fp fi A, q2.1 ≠ [] := by
  intro A
  induction A with
  | nil => intro _ q2 hq2; simp [packOpFlat] at hq2
  | cons q rest ih =>
    intro h q2 hq2
    rcases q with ⟨p, v⟩
    have hp : p ≠ [] := h (p, v) (List.mem_cons_self _ _)
    rw [packOpFlat] at hq2
    rcases List.mem_append.mp hq2 with h1 | h2
    · by_cases hidx : p = [IDX]
      · rw [if_pos hidx] at h1
        have : q2 = (p, fi v) := by simpa using h1
        rw [this]
        exact hp
      · rw [if_neg hidx] at h1
        rcases List.mem_cons.mp h1 with e1 | h1b
        · rw [e1]; exact hp
        · rcases List.mem_cons.mp h1b with e2 | h1c
          · rw [e2]; exact sufLast_ne_nil segSuf hp
          · rcases List.mem_cons.mp h1c with e3 | h1d
            · rw [e3]; exact sufLast_ne_nil posSuf hp
            · simp at h1d
    · exact ih (fun q0 hq0 => h q0 (List.mem_cons_of_mem _ hq0)) q2 h2

theorem flattenE_ne_nil : ∀ (n : Nat) (d : List (String × NVal)), msize d ≤ n →
    wfE d = true → d ≠ [] → flattenE d ≠ [] := by
  intro n
  induction n with
  | zero =>
    intro d hsize _ hne
    cases d with
    | nil => exact absurd rfl hne
    | cons e rest =>
      exfalso
      rcases e with ⟨k, t⟩
      cases t <;> rw [msize] at hsize <;> omega
  | succ m ih =>
    intro d hsize hwf hne
    cases d with
    | nil => exact absurd rfl hne
    | cons e rest =>
      rcases e with ⟨k, t⟩
      cases t with
      | leaf v =>
        rw [flattenE]
        simp
      | node sub =>
        rw [flattenE]
        rw [wfE, Bool.and_eq_true, Bool.and_eq_true, Bool.and_eq_true] at hwf
        have hsubne : sub ≠ [] := by
          have := hwf.1.1.1
          cases sub
          · simp at this
          · simp
        have hsubsize : msize sub ≤ m := by
          rw [msize] at hsize
          omega
        have hfne : flattenE sub ≠ [] := ih sub hsubsize hwf.1.2 hsubne
        intro hc
        rcases List.append_eq_nil.mp hc with ⟨hmap, _⟩
        exact hfne (List.map_eq_nil_iff.mp hmap)

theorem addSegPosE_keys (fv fs fp : List Token → List Token) :
    ∀ d, ∀ q ∈ addSegPosE fv fs fp d, q.1 ∈ extKeys d := by
  intro d
  induction d with
  | nil => intro q hq; simp [addSegPosE] at hq
  | cons e rest ih =>
    intro q hq
    rcases e with ⟨k, t⟩
    cases t with
    | leaf v =>
      rw [addSegPosE] at hq
      rw [extKeys]
      rcases List.mem_cons.mp hq with h1 | hq2
      · rw [h1]; simp
      · rcases List.mem_cons.mp hq2 with h2 | hq3
        · rw [h2]; simp
        · rcases List.mem_cons.mp hq3 with h3 | hq4
          · rw [h3]; simp
          · have := ih q hq4
            simp [this]
    | node sub =>
      rw [addSegPosE] at hq
      rw [extKeys]
      rcases List.mem_cons.mp hq with h1 | hq2
      · rw [h1]; simp
      · have := ih q hq2
        simp [this]

theorem removeIndexD_append_idx (X : List (String × NVal)) (e : NVal)
    (hX : ∀ q ∈ X, ¬ q.1 = IDX) : removeIndexD (X ++ [(IDX, e)]) = X := by
  unfold removeIndexD
  rw [List.filter_append]
  have h2 : List.filter (fun q => !(q.1 == IDX)) [(IDX, e)] = [] := by
    simp [List.filter]
  have h1 : List.filter (fun q => !(q.1 == IDX)) X = X := by
    apply List.filter_eq_self.mpr
    intro q hq
    simp [hX q hq]
  rw [h1, h2, List.append_nil]

theorem hasKey_singleton (k0 k1 : String) (t : NVal) :
    hasKey k0 [(k1, t)] = (k0 == k1) := by
  rw [hasKey, hasKey, Bool.or_false]

/-- Folding the unflatten insertions over the packed flat entries of a
well-formed dict rebuilds the dict with seg/pos sibling keys added at
every leaf. -/
theorem fold_pack_insert (fv fs fp fi : List Token → List Token) :
    ∀ (n : Nat) (d : List (String × NVal)), msize d ≤ n →
    wfE d = true → (extKeys d).Nodup → noIdxE d = true →
    ∀ a : List (String × NVal), (∀ k0 ∈ extKeys d, hasKey k0 a = false) →
    List.foldl (fun d0 q => insertPath q.1 q.2 d0) a
      (packOpFlat fv fs fp fi (flattenE d)) = a ++ addSegPosE fv fs fp d := by
  intro n
  induction n with
  | zero =>
    intro d hsize _ _ _ a _
    cases d with
    | nil =>
      rw [flattenE, addSegPosE, List.append_nil]
      rfl
    | cons e rest =>
      exfalso
      rcases e with ⟨k, t⟩
      cases t <;> rw [msize] at hsize <;> omega
  | succ m ih =>
    intro d hsize hwf hnd hidx a hfresh
    cases d with
    | nil =>
      rw [flattenE, addSegPosE, List.append_nil]
      rfl
    | cons e rest =>
      rcases e with ⟨k, t⟩
      cases t with
      | leaf v =>
        rw [wfE] at hwf
        rw [extKeys] at hnd hfresh
        rw [noIdxE, Bool.and_eq_true] at hidx
        have hk_idx : k ≠ IDX := by
          intro he
          rw [he] at hidx
          simp at hidx
        rcases List.nodup_cons.mp hnd with ⟨hk_nm, hnd2⟩
        rcases List.nodup_cons.mp hnd2 with ⟨hseg_nm, hnd3⟩
        rcases List.nodup_cons.mp hnd3 with ⟨hpos_nm, hnd4⟩
        rw [flattenE, packOpFlat]
        have hkpath : ([k] : List String) ≠ [IDX] := by
          intro hc
          injection hc with h1
          exact hk_idx h1
        rw [if_neg hkpath, List.foldl_append]
        have hstep : List.foldl (fun d0 q => insertPath q.1 q.2 d0) a
            [([k], fv v), (sufLast segSuf [k], fs v), (sufLast posSuf [k], fp v)] =
            ((a ++ [(k, NVal.leaf (fv v))]) ++ [(k ++ segSuf, NVal.leaf (fs v))]) ++
              [(k ++ posSuf, NVal.leaf (fp v))] := rfl
        rw [hstep]
        have hfresh2 : ∀ k0 ∈ extKeys rest,
            hasKey k0 (((a ++ [(k, NVal.leaf (fv v))]) ++ [(k ++ segSuf, NVal.leaf (fs v))]) ++
              [(k ++ posSuf, NVal.leaf (fp v))]) = false := by
          intro k0 hk0
          rw [hasKey_append, hasKey_append, hasKey_append]
          have h0 : hasKey k0 a = false := hfresh k0
            (List.mem_cons_of_mem _ (List.mem_cons_of_mem _ (List.mem_cons_of_mem _ hk0)))
          have e1 : k0 ≠ k := by
            intro he
            exact hk_nm (List.mem_cons_of_mem _ (List.mem_cons_of_mem _ (he ▸ hk0)))
          have e2 : k0 ≠ k ++ segSuf := by
            intro he
            exact hseg_nm (List.mem_cons_of_mem _ (he ▸ hk0))
          have e3 : k0 ≠ k ++ posSuf := by
            intro he
            exact hpos_nm (he ▸ hk0)
          rw [hasKey_singleton, hasKey_singleton, hasKey_singleton, h0,
            beq_false_of_ne e1, beq_false_of_ne e2, beq_false_of_ne e3]
          rfl
        have hrest := ih rest (by rw [msize] at hsize; omega) hwf hnd4 hidx.2 _ hfresh2
        rw [hrest, addSegPosE]
        simp [List.append_assoc]
      | node sub =>
        rw [wfE, Bool.and_eq_true, Bool.and_eq_true, Bool.and_eq_true] at hwf
        rw [extKeys] at hnd hfresh
        rw [noIdxE, Bool.and_eq_true, Bool.and_eq_true] at hidx
        rcases List.nodup_cons.mp hnd with ⟨hk_nm, hnd2⟩
        have hsubne : sub ≠ [] := by
          have h0 := hwf.1.1.1
          cases sub
          · simp at h0
          · simp
        rw [flattenE, packOpFlat_append, List.foldl_append]
        have hpne := flattenE_paths_ne_nil sub
        have hpidx := flattenE_paths_ne_idx sub hidx.1.2
        rw [packOpFlat_map_consKey fv fs fp fi k (flattenE sub) hpne hpidx]
        have hflat_ne : flattenE sub ≠ [] :=
          flattenE_ne_nil (msize sub) sub (Nat.le_refl _) hwf.1.2 hsubne
        have hbatch_ne : packOpFlat fv fs fp fi (flattenE sub) ≠ [] := by
          cases hfe : flattenE sub with
          | nil => exact absurd hfe hflat_ne
          | cons q r => exact packOpFlat_ne_nil fv fs fp fi q r
        have hbatch_paths := packOpFlat_paths_ne_nil fv fs fp fi (flattenE sub) hpne
        rw [fold_batch_new k _ a hbatch_ne hbatch_paths
          (hfresh k (List.mem_cons_self _ _))]
        have hinner := ih sub (by rw [msize] at hsize; omega) hwf.1.2
          (of_decide_eq_true hwf.1.1.2) hidx.1.2 [] (fun k0 _ => rfl)
        rw [List.nil_append] at hinner
        rw [hinner]
        have hfresh2 : ∀ k0 ∈ extKeys rest,
            hasKey k0 (a ++ [(k, NVal.node (addSegPosE fv fs fp sub))]) = false := by
          intro k0 hk0
          rw [hasKey_append]
          have h0 : hasKey k0 a = false := hfresh k0 (List.mem_cons_of_mem _ hk0)
          have e1 : k0 ≠ k := by
            intro he
            exact hk_nm (he ▸ hk0)
          rw [hasKey_singleton, h0, beq_false_of_ne e1]
          rfl
        have hrest := ih rest (by rw [msize] at hsize; omega) hwf.2 hnd2 hidx.2 _ hfresh2
        rw [hrest, addSegPosE]
        simp [List.append_assoc]

/-- C10: output key frame of `pack_dataset`'s plumbing. For a well-formed
nested example (distinct keys at every level, also counting the generated
seg/pos keys; no empty nested dict; no key equal to the grain index key),
the add-index / flatten / pack / unflatten / remove-index pipeline returns
the example with exactly its original nested key structure, where every
leaf key `k` has gained the two sibling keys `k_segment_ids` and
`k_positions`, and the internal grain index key has been removed — for
any value transforms `fv fs fp fi` of the packing op. -/
theorem C10_output_key_frame (fv fs fp fi : List Token → List Token)
    (d : List (String × NVal)) (hwf : wfE d = true) (hnd : (extKeys d).Nodup)
    (hidx : noIdxE d = true) (hidx2 : IDX ∉ extKeys d) :
    packPipeline fv fs fp fi d = addSegPosE fv fs fp d := by
  unfold packPipeline unflattenF
  rw [addIndex, flattenE_append, packOpFlat_append, List.foldl_append]
  have hmain := fold_pack_insert fv fs fp fi (msize d) d (Nat.le_refl _) hwf hnd hidx
    [] (fun k0 _ => rfl)
  rw [List.nil_append] at hmain
  rw [hmain]
  have hidxflat : flattenE [(IDX, NVal.leaf [-1])] = [([IDX], [-1])] := by
    simp [flattenE]
  rw [hidxflat, packOpFlat, if_pos rfl, packOpFlat]
  have hlast : List.foldl (fun d0 q => insertPath q.1 q.2 d0) (addSegPosE fv fs fp d)
      ([([IDX], fi [-1])] ++ []) =
      addSegPosE fv fs fp d ++ [(IDX, NVal.leaf (fi [-1]))] := rfl
  rw [hlast]
  apply removeIndexD_append_idx
  intro q hq
  intro he
  exact hidx2 (he ▸ addSegPosE_keys fv fs fp d q hq)

theorem C10_output_key_frame_witness :
    packPipeline (fun v => v) (fun v => v) (fun v => v) (fun v => v)
      [("inputs", NVal.leaf [8, 7, 1]), ("extra", NVal.node [("targets", NVal.leaf [4, 1])])] =
    addSegPosE (fun v => v) (fun v => v) (fun v => v)
      [("inputs", NVal.leaf [8, 7, 1]), ("extra", NVal.node [("targets", NVal.leaf [4, 1])])] :=
  C10_output_key_frame (fun v => v) (fun v => v) (fun v => v) (fun v => v)
    [("inputs", NVal.leaf [8, 7, 1]), ("extra", NVal.node [("targets", NVal.leaf [4, 1])])]
    (by simp [wfE, extKeys, segSuf, posSuf])
    (by simp [extKeys, segSuf, posSuf])
    (by simp [noIdxE, IDX])
    (by simp [extKeys, segSuf, posSuf, IDX])

end SeqPack
